import Mathlib

/-!
Verification of the text-to-speech pipeline in `tts_google.py`.

The program is embedded shallowly: strings are lists of characters
(`Str := List Char`), the module-level environment-derived constants
(`USE_SSML`, `SSML_MODE`, `BREAK_MS`, `PARA_BREAK_MS`, `PROFESSOR_PROSODY`,
`PROSODY_RATE`, `PROSODY_PITCH`, `MAX_SSML_BYTES`, `MAX_TEXT_BYTES`,
`SAMPLE_RATE_HZ`) are gathered into an explicit `Config` record, and every
Python function relevant to the claims (`auto_text_to_ssml`,
`ssml_bytes_for_text_chunk`, `split_text_sentence_aware` with its nested
`fits`/`try_add`/`flush` helpers, `build_synthesis_input`, `write_wav`,
and the pre-synthesis part of `main`) is translated into a structurally
recursive Lean definition.  Integer environment values are modelled as
naturals.  Python regular expressions are specialised to the concrete
patterns that appear in the source:
  * `(?<=[.!?])\s+`                 (sentence splitting),
  * `([.!?])(\s+)`, `(,)(\s+)`, `([:;])(\s+)`, `(—|--)(\s+)`
                                    (pause-directive insertion),
and Python's `str.strip`, `str.split`, `str.split("\n\n")`,
`str.replace` and `html.escape` are translated directly.
-/

namespace TTS

/-- Character lists standing for Python strings. -/
abbrev Str := List Char

/-- Convert a Lean string literal to the character-list representation. -/
def chars (s : String) : Str := s.data

/-- Whitespace in the sense of Python's `str.isspace` / `re` `\s`
(ASCII whitespace plus the Unicode space characters). -/
def pySpace : Char → Bool
  | ' ' | '\t' | '\n' | '\r' | '\x0b' | '\x0c'
  | '\x1c' | '\x1d' | '\x1e' | '\x1f' | '\x85' | '\xa0'
  | ' ' | ' ' | ' ' | ' ' | ' ' | ' '
  | ' ' | ' ' | ' ' | ' ' | ' ' | ' '
  | ' ' | ' ' | ' ' | ' ' | '　' => true
  | _ => false

/-- Python `s.strip()`: drop leading and trailing whitespace. -/
def strip (l : Str) : Str :=
  ((l.dropWhile pySpace).reverse.dropWhile pySpace).reverse

/-- Auxiliary state machine for Python `s.split()` (split on whitespace
runs, dropping empty pieces); `cur` is the current token reversed. -/
def pySplitAux : Str → Str → List Str
  | cur, [] => if cur.isEmpty then [] else [cur.reverse]
  | cur, c :: r =>
    if pySpace c then
      if cur.isEmpty then pySplitAux [] r else cur.reverse :: pySplitAux [] r
    else pySplitAux (c :: cur) r

/-- Python `s.split()`. -/
def pySplit (l : Str) : List Str := pySplitAux [] l

/-- Auxiliary scanner for Python `s.split("\n\n")` (leftmost,
non-overlapping); `cur` is the current piece reversed. -/
def splitParaAux : Str → Str → List Str
  | cur, [] => [cur.reverse]
  | cur, [c] => [(c :: cur).reverse]
  | cur, c :: d :: r =>
    if c = '\n' && d = '\n' then cur.reverse :: splitParaAux [] r
    else splitParaAux (c :: cur) (d :: r)

/-- Python `s.replace("\r\n", "\n")` (leftmost, non-overlapping). -/
def replaceCRLF : Str → Str
  | [] => []
  | [c] => [c]
  | c :: d :: r =>
    if c = '\r' && d = '\n' then '\n' :: replaceCRLF r
    else c :: replaceCRLF (d :: r)

/-- Python `s.replace("\r", "\n")`. -/
def replaceCR1 (l : Str) : Str := l.map (fun c => if c = '\r' then '\n' else c)

/-- The normalisation performed at the start of both `auto_text_to_ssml`
and `split_text_sentence_aware`:
`text.replace("\r\n", "\n").replace("\r", "\n").strip()`. -/
def normalizeText (l : Str) : Str := strip (replaceCR1 (replaceCRLF l))

/-- Sentence-terminal punctuation, the class `[.!?]`. -/
def isSentEnd : Char → Bool
  | '.' | '!' | '?' => true
  | _ => false

/-- Scanner for `re.split(r"(?<=[.!?])\s+", para)`.  The `Bool` is true
while consuming the whitespace of a match; `cur` is the current piece
reversed, so its head is the previously scanned character. -/
def sentSplitAux : Bool → Str → Str → List Str
  | _, cur, [] => [cur.reverse]
  | true, cur, c :: r =>
    if pySpace c then sentSplitAux true cur r else sentSplitAux false [c] r
  | false, cur, c :: r =>
    if pySpace c && (match cur with | p :: _ => isSentEnd p | [] => false) then
      cur.reverse :: sentSplitAux true [] r
    else sentSplitAux false (c :: cur) r

/-- `[s.strip() for s in sentence_split_re.split(para) if s.strip()]`. -/
def sentencesOf (p : Str) : List Str :=
  ((sentSplitAux false [] p).map strip).filter (fun s => !s.isEmpty)

/-- `[p.strip() for p in txt.split("\n\n") if p.strip()]`. -/
def parasOf (t : Str) : List Str :=
  ((splitParaAux [] t).map strip).filter (fun s => !s.isEmpty)

/-- One character of Python `html.escape` (with its default
`quote=True`, so double and single quotes are escaped as well). -/
def escChar : Char → Str
  | '&' => chars ("&amp;")
  | '<' => chars ("&lt;")
  | '>' => chars ("&gt;")
  | '\"' => chars ("&quot;")
  | '\'' => chars ("&#x27;")
  | c => [c]

/-- Python `html.escape(p)`: its chained `str.replace` calls amount to a
character-wise expansion because no replacement text contains a character
replaced by a later step. -/
def htmlEscape (l : Str) : Str := (l.map escChar).flatten

/-- The value of `SSML_MODE` as far as the program distinguishes it:
the code compares the string against `"auto"` and `"raw"` only. -/
inductive SsmlMode
  | auto
  | raw
  | other
deriving DecidableEq, BEq, Repr

/-- The module-level configuration constants of `tts_google.py` read
from the environment, as one record (integers as naturals). -/
structure Config where
  useSSML : Bool
  ssmlMode : SsmlMode
  breakMs : Nat
  paraBreakMs : Nat
  professorProsody : Bool
  prosodyRate : Str
  prosodyPitch : Str
  maxSSMLBytes : Nat
  maxTextBytes : Nat
  sampleRateHz : Nat
deriving DecidableEq, Repr

/-- The default configuration (the source's fallback values). -/
def defaultConfig : Config :=
  { useSSML := true
    ssmlMode := SsmlMode.auto
    breakMs := 220
    paraBreakMs := 420
    professorProsody := false
    prosodyRate := chars ("88%")
    prosodyPitch := chars ("-1st")
    maxSSMLBytes := 4700
    maxTextBytes := 4700
    sampleRateHz := 24000 }

/-- Decimal digits of a natural, as in Python `str(n)` inside the
f-strings of the source. -/
def natChars (n : Nat) : Str := Nat.toDigits 10 n

/-- Head-of-list whitespace test (the `(\s+)` lookahead of the pause
patterns). -/
def headSpace : Str → Bool
  | c :: _ => pySpace c
  | [] => false

/-- The replacement text `" <break time='{n}ms'/> "` that each pause
substitution writes after the matched punctuation (`\1`); the matched
whitespace `\2` is dropped by the source's replacement strings. -/
def brkStr (n : Nat) : Str :=
  chars (" <break time='") ++ natChars n ++ chars ("ms'/> ")

/-- Scanner for `re.sub(r"(C)(\s+)", r"\1" + brk, s)` with `C` a
single-character class `trig`.  The `Bool` is true while consuming the
whitespace of a match. -/
def subBreakAux (trig : Char → Bool) (brk : Str) : Bool → Str → Str
  | _, [] => []
  | sk, c :: r =>
    if sk && pySpace c then subBreakAux trig brk true r
    else if trig c && headSpace r then c :: (brk ++ subBreakAux trig brk true r)
    else c :: subBreakAux trig brk false r

/-- State of the em-dash/double-hyphen scanner: scanning normally,
consuming the whitespace of a match, or holding one pending hyphen whose
role (first half of `--` or plain text) is not yet decided. -/
inductive DashState
  | norm
  | skip
  | dash
deriving DecidableEq, BEq, Repr

/-- Scanner for `re.sub(r"(—|--)(\s+)", r"\1" + brk, s)`: an
em-dash or a double hyphen followed by whitespace, leftmost and
non-overlapping, consuming one character per step. -/
def subDashAux (brk : Str) : DashState → Str → Str
  | DashState.norm, [] => []
  | DashState.skip, [] => []
  | DashState.dash, [] => ['-']
  | st, c :: r =>
    if st == DashState.skip && pySpace c then subDashAux brk DashState.skip r
    else if st == DashState.dash then
      if c = '-' then
        if headSpace r then '-' :: '-' :: (brk ++ subDashAux brk DashState.skip r)
        else '-' :: subDashAux brk DashState.dash r
      else if c = '—' && headSpace r then
        '-' :: c :: (brk ++ subDashAux brk DashState.skip r)
      else '-' :: c :: subDashAux brk DashState.norm r
    else
      if c = '—' && headSpace r then c :: (brk ++ subDashAux brk DashState.skip r)
      else if c = '-' then subDashAux brk DashState.dash r
      else c :: subDashAux brk DashState.norm r

/-- The comma-pause class `(,)`. -/
def isComma (c : Char) : Bool := c = ','

/-- The colon/semicolon-pause class `([:;])`. -/
def isColonSemi (c : Char) : Bool := c = ':' || c = ';'

/-- The four `re.sub` pause insertions of `auto_text_to_ssml`, in source
order: sentence endings (duration `BREAK_MS`), commas (120ms),
colons/semicolons (220ms), em-dash/double-hyphen (180ms). -/
def applyBreaks (cfg : Config) (l : Str) : Str :=
  subDashAux (brkStr 180) DashState.norm
    (subBreakAux isColonSemi (brkStr 220) false
      (subBreakAux isComma (brkStr 120) false
        (subBreakAux isSentEnd (brkStr cfg.breakMs) false l)))

/-- The per-paragraph wrapper: `<p>...</p>`, with the optional
`<prosody>` element when `PROFESSOR_PROSODY` is enabled. -/
def wrapPara (cfg : Config) (body : Str) : Str :=
  if cfg.professorProsody then
    chars ("<p><prosody rate='") ++ cfg.prosodyRate ++ chars ("' pitch='") ++
      cfg.prosodyPitch ++ chars ("'>") ++ body ++ chars ("</prosody></p>")
  else chars ("<p>") ++ body ++ chars ("</p>")

/-- Processing of one paragraph inside `auto_text_to_ssml`:
`html.escape` first, then the four pause substitutions, then the
paragraph wrapper. -/
def processPara (cfg : Config) (p : Str) : Str :=
  wrapPara cfg (applyBreaks cfg (htmlEscape p))

/-- The inter-paragraph joiner `<break time='{PARA_BREAK_MS}ms'/>`. -/
def paraJoiner (cfg : Config) : Str :=
  chars ("<break time='") ++ natChars cfg.paraBreakMs ++ chars ("ms'/>")

/-- `auto_text_to_ssml(text)`. -/
def auto_text_to_ssml (cfg : Config) (text : Str) : Str :=
  let t := normalizeText text
  chars ("<speak>") ++
    List.intercalate (paraJoiner cfg) ((parasOf t).map (processPara cfg)) ++
    chars ("</speak>")

/-- `utf8_len(s) = len(s.encode("utf-8"))`. -/
def utf8_len (l : Str) : Nat := (l.map Char.utf8Size).sum

/-- `ssml_bytes_for_text_chunk(text_chunk)`. -/
def ssml_bytes_for_text_chunk (cfg : Config) (c : Str) : Nat :=
  utf8_len (auto_text_to_ssml cfg c)

/-- Whether the segmenter is in auto-markup mode:
`USE_SSML and SSML_MODE == "auto"`. -/
def autoMode (cfg : Config) : Bool :=
  cfg.useSSML && (cfg.ssmlMode == SsmlMode.auto)

/-- The byte size the verification pass of `split_text_sentence_aware`
computes for a chunk (the payload estimate of the active mode). -/
def chunkBytes (cfg : Config) (c : Str) : Nat :=
  if autoMode cfg then ssml_bytes_for_text_chunk cfg c else utf8_len c

/-- The budget the segmenter enforces: `MAX_SSML_BYTES` in auto-markup
mode, `MAX_TEXT_BYTES` otherwise. -/
def chunkLimit (cfg : Config) : Nat :=
  if autoMode cfg then cfg.maxSSMLBytes else cfg.maxTextBytes

/-- The nested `fits(candidate_text)` of `split_text_sentence_aware`. -/
def fits (cfg : Config) (cand : Str) : Bool :=
  if autoMode cfg then
    decide (ssml_bytes_for_text_chunk cfg cand ≤ cfg.maxSSMLBytes)
  else decide (utf8_len cand ≤ cfg.maxTextBytes)

/-- The word-level packing loop (last-resort fallback): returns the
chunks flushed by the loop together with the final `wbuf`. -/
def packWordsAux (cfg : Config) : Str → List Str → List Str × Str
  | wbuf, [] => ([], wbuf)
  | wbuf, w :: ws =>
    let cand := strip (wbuf ++ (if wbuf.isEmpty then [] else [' ']) ++ w)
    if fits cfg cand then packWordsAux cfg cand ws
    else
      let r := packWordsAux cfg w ws
      (if wbuf.isEmpty then r.1 else wbuf :: r.1, r.2)

/-- The word fallback for a single oversized sentence `s`: pack
`s.split()` greedily and flush the final buffer. -/
def packWords (cfg : Config) (s : Str) : List Str :=
  let r := packWordsAux cfg [] (pySplit s)
  r.1 ++ (if r.2.isEmpty then [] else [r.2])

/-- The sentence-level packing loop over the sentences of one oversized
paragraph: returns flushed chunks and the final `sent_buf`. -/
def packSentsAux (cfg : Config) : Str → List Str → List Str × Str
  | sbuf, [] => ([], sbuf)
  | sbuf, s :: ss =>
    let cand := strip (sbuf ++ (if sbuf.isEmpty then [] else [' ']) ++ s)
    if fits cfg cand then packSentsAux cfg cand ss
    else
      let pre : List Str := if sbuf.isEmpty then [] else [sbuf]
      if fits cfg s then
        let r := packSentsAux cfg s ss
        (pre ++ r.1, r.2)
      else
        let r := packSentsAux cfg [] ss
        (pre ++ packWords cfg s ++ r.1, r.2)

/-- The sentence fallback for one oversized paragraph `p`, flushing the
final `sent_buf`. -/
def packSents (cfg : Config) (p : Str) : List Str :=
  let r := packSentsAux cfg [] (sentencesOf p)
  r.1 ++ (if r.2.isEmpty then [] else [r.2])

/-- The paragraph-level loop of `split_text_sentence_aware`: returns the
chunks flushed so far and the final `current` accumulator.  The guard of
the first branch is the nested `try_add` (true when the candidate is
empty or fits); flushing appends `current.strip()` when non-empty. -/
def packParasAux (cfg : Config) : Str → List Str → List Str × Str
  | cur, [] => ([], cur)
  | cur, p :: ps =>
    let cand := strip (cur ++ (if cur.isEmpty then [] else chars ("\n\n")) ++ p)
    if cand.isEmpty || fits cfg cand then packParasAux cfg cand ps
    else
      let flushed : List Str := if (strip cur).isEmpty then [] else [strip cur]
      if fits cfg p then
        let r := packParasAux cfg p ps
        (flushed ++ r.1, r.2)
      else
        let r := packParasAux cfg [] ps
        (flushed ++ packSents cfg p ++ r.1, r.2)

/-- All chunks collected by `split_text_sentence_aware` before its
verification pass (paragraph loop plus the final `flush()`). -/
def buildChunks (cfg : Config) (paras : List Str) : List Str :=
  let r := packParasAux cfg [] paras
  r.1 ++ (if (strip r.2).isEmpty then [] else [strip r.2])

/-- The data of the `RuntimeError` raised by the verification pass:
the 1-based index of the offending chunk and its byte size, as in the
message `"Internal error: chunk {i} ... bytes={b} exceeds ..."`. -/
structure SplitErr where
  idx : Nat
  bytes : Nat
deriving DecidableEq, Repr

/-- The safety verification loop at the end of
`split_text_sentence_aware` (`for i, c in enumerate(chunks, 1): ...`). -/
def verifyChunks (cfg : Config) : Nat → List Str → Except SplitErr Unit
  | _, [] => Except.ok ()
  | i, c :: cs =>
    if chunkLimit cfg < chunkBytes cfg c then Except.error ⟨i, chunkBytes cfg c⟩
    else verifyChunks cfg (i + 1) cs

/-- `split_text_sentence_aware(raw_text)`: `Except.error` models the
`RuntimeError` raised by the verification pass. -/
def split_text_sentence_aware (cfg : Config) (raw_text : Str) :
    Except SplitErr (List Str) :=
  let txt := normalizeText raw_text
  if txt.isEmpty then Except.ok []
  else
    let chunks := buildChunks cfg (parasOf txt)
    match verifyChunks cfg 1 chunks with
    | Except.ok _ => Except.ok chunks
    | Except.error e => Except.error e

/-- A synthesis payload: `texttospeech.SynthesisInput` with either its
`text` or its `ssml` field set. -/
inductive Payload
  | text (s : Str)
  | ssml (s : Str)
deriving DecidableEq, Repr

/-- `build_synthesis_input(raw)`. -/
def build_synthesis_input (cfg : Config) (raw : Str) : Payload :=
  if !cfg.useSSML then Payload.text raw
  else if cfg.ssmlMode == SsmlMode.raw then Payload.ssml raw
  else Payload.ssml (auto_text_to_ssml cfg raw)

/-- The errors `main()` can raise before any synthesis call. -/
inductive MainErr
  | emptyInput
  | rawOverCeiling
  | nothingToSynthesize
  | internalChunk (e : SplitErr)
deriving DecidableEq, Repr

/-- The pre-synthesis part of `main()`: read and strip the input file
text, reject an empty document, in raw-SSML mode reject a document over
the hard 5000-byte ceiling, run `split_text_sentence_aware`, reject an
empty chunk list, and return the payloads that `synthesize_one` would
send, in order. -/
def mainChunkPlan (cfg : Config) (fileText : Str) :
    Except MainErr (List Payload) :=
  let raw := strip fileText
  if raw.isEmpty then Except.error MainErr.emptyInput
  else if cfg.useSSML && (cfg.ssmlMode == SsmlMode.raw) && decide (5000 < utf8_len raw) then
    Except.error MainErr.rawOverCeiling
  else
    match split_text_sentence_aware cfg raw with
    | Except.error e => Except.error (MainErr.internalChunk e)
    | Except.ok chunks =>
      if chunks.isEmpty then Except.error MainErr.nothingToSynthesize
      else Except.ok (chunks.map (build_synthesis_input cfg))

/-- A WAV file as the `wave` module writes it in `write_wav`:
channel count, sample width in bytes, frame rate, and the payload. -/
structure WavFile where
  nchannels : Nat
  sampwidth : Nat
  framerate : Nat
  data : List UInt8
deriving DecidableEq, Repr

/-- `write_wav(path, pcm_bytes, sample_rate_hz)`: mono, 16-bit
(`setsampwidth(2)`), at the given rate, with the bytes as payload. -/
def write_wav (pcm_bytes : List UInt8) (sample_rate_hz : Nat) : WavFile :=
  { nchannels := 1, sampwidth := 2, framerate := sample_rate_hz, data := pcm_bytes }

/-- The PCM frame count the container header records:
`len(data) // (nchannels * sampwidth)`. -/
def WavFile.nframes (w : WavFile) : Nat :=
  w.data.length / (w.nchannels * w.sampwidth)

/-- Frame count of one raw LINEAR16 fragment (2 bytes per mono frame). -/
def fragFrames (frag : List UInt8) : Nat := frag.length / 2

/-- The LINEAR16 branch of `main()`: concatenate the fragment byte
buffers in order (`combined_pcm += ...`) and wrap them via `write_wav`. -/
def assembleLinear16 (sample_rate_hz : Nat) (frags : List (List UInt8)) : WavFile :=
  write_wav (frags.flatten) sample_rate_hz

/-- A chunk in good shape: non-empty and already stripped (hence not
whitespace-only). -/
def GoodChunk (c : Str) : Prop := c ≠ [] ∧ strip c = c

/-- An accumulator buffer is either empty or a good chunk. -/
def GoodBuf (b : Str) : Prop := b = [] ∨ GoodChunk b

/-! ### Lemmas about whitespace tokenisation (`pySplit`) -/

theorem pySplitAux_append_space_nil {c : Char} (hc : pySpace c = true) :
    ∀ (a cur : Str), pySplitAux cur (a ++ [c]) = pySplitAux cur a := by
  intro a
  induction a with
  | nil =>
    intro cur
    cases cur with
    | nil => simp [pySplitAux, hc]
    | cons x xs => simp [pySplitAux, hc]
  | cons x xs ih =>
    intro cur
    by_cases hx : pySpace x = true
    · cases cur with
      | nil => simpa [pySplitAux, hx] using ih []
      | cons y ys => simpa [pySplitAux, hx] using ih []
    · simp only [Bool.not_eq_true] at hx
      simpa [pySplitAux, hx] using ih (x :: cur)

theorem pySplitAux_append_space {c : Char} (hc : pySpace c = true) :
    ∀ (a cur b : Str),
      pySplitAux cur (a ++ c :: b) =
        pySplitAux cur (a ++ [c]) ++ pySplitAux [] b := by
  intro a
  induction a with
  | nil =>
    intro cur b
    cases cur with
    | nil => simp [pySplitAux, hc]
    | cons x xs => simp [pySplitAux, hc]
  | cons x xs ih =>
    intro cur b
    by_cases hx : pySpace x = true
    · cases cur with
      | nil => simpa [pySplitAux, hx] using ih [] b
      | cons y ys => simpa [pySplitAux, hx] using ih [] b
    · simp only [Bool.not_eq_true] at hx
      simpa [pySplitAux, hx] using ih (x :: cur) b

theorem pySplit_append_space {c : Char} (hc : pySpace c = true) (a b : Str) :
    pySplit (a ++ c :: b) = pySplit a ++ pySplit b := by
  unfold pySplit
  rw [pySplitAux_append_space hc a [] b, pySplitAux_append_space_nil hc a []]

theorem pySplit_cons_space {c : Char} (hc : pySpace c = true) (l : Str) :
    pySplit (c :: l) = pySplit l := by
  simpa using pySplit_append_space hc [] l

theorem pySplit_allspace : ∀ {l : Str}, (∀ c ∈ l, pySpace c = true) →
    pySplit l = [] := by
  intro l
  induction l with
  | nil => intro _; rfl
  | cons x xs ih =>
    intro h
    rw [pySplit_cons_space (h x (by simp))]
    exact ih (fun c hc => h c (by simp [hc]))

theorem pySplit_append_allspace {a s : Str} (h : ∀ c ∈ s, pySpace c = true) :
    pySplit (a ++ s) = pySplit a := by
  cases s with
  | nil => simp
  | cons c s' =>
    have h5 : pySplit s' = [] :=
      pySplit_allspace (fun d hd => h d (List.mem_cons_of_mem _ hd))
    rw [pySplit_append_space (h c (List.mem_cons_self _ _)) a s', h5,
      List.append_nil]

theorem pySplit_dropWhile (l : Str) :
    pySplit (l.dropWhile pySpace) = pySplit l := by
  induction l with
  | nil => rfl
  | cons x xs ih =>
    by_cases hx : pySpace x = true
    · rw [List.dropWhile_cons_of_pos (by simpa using hx), ih,
        pySplit_cons_space hx]
    · rw [List.dropWhile_cons_of_neg (by simpa using hx)]

theorem pySplit_strip (l : Str) : pySplit (strip l) = pySplit l := by
  unfold strip
  have hdecomp :
      (l.dropWhile pySpace).reverse.takeWhile pySpace ++
        (l.dropWhile pySpace).reverse.dropWhile pySpace =
        (l.dropWhile pySpace).reverse :=
    List.takeWhile_append_dropWhile pySpace (l.dropWhile pySpace).reverse
  have hmain :
      l.dropWhile pySpace =
        ((l.dropWhile pySpace).reverse.dropWhile pySpace).reverse ++
          ((l.dropWhile pySpace).reverse.takeWhile pySpace).reverse := by
    conv_lhs => rw [← List.reverse_reverse (l.dropWhile pySpace), ← hdecomp]
    rw [List.reverse_append]
  calc pySplit ((l.dropWhile pySpace).reverse.dropWhile pySpace).reverse
      = pySplit (((l.dropWhile pySpace).reverse.dropWhile pySpace).reverse ++
          ((l.dropWhile pySpace).reverse.takeWhile pySpace).reverse) := by
        refine (pySplit_append_allspace ?_).symm
        intro c hc
        rw [List.mem_reverse] at hc
        exact List.mem_takeWhile_imp hc
    _ = pySplit (l.dropWhile pySpace) := by rw [← hmain]
    _ = pySplit l := pySplit_dropWhile l

theorem strip_allspace {l : Str} (h : ∀ c ∈ l, pySpace c = true) :
    strip l = [] := by
  unfold strip
  have h1 : l.dropWhile pySpace = [] := List.dropWhile_eq_nil_iff.mpr h
  simp [h1]

theorem strip_eq_nil_allspace {l : Str} (h : strip l = []) :
    ∀ c ∈ l, pySpace c = true := by
  unfold strip at h
  have h2 : (l.dropWhile pySpace).reverse.dropWhile pySpace = [] := by
    have := congrArg List.reverse h
    simpa using this
  have h3 : ∀ c ∈ l.dropWhile pySpace, pySpace c = true := by
    intro c hc
    exact List.dropWhile_eq_nil_iff.mp h2 c (by simpa using hc)
  intro c hc
  have hsplit : l.takeWhile pySpace ++ l.dropWhile pySpace = l :=
    List.takeWhile_append_dropWhile pySpace l
  rw [← hsplit] at hc
  rcases List.mem_append.mp hc with h4 | h4
  · exact List.mem_takeWhile_imp h4
  · exact h3 c h4

theorem pySplitAux_mem_token :
    ∀ {rem cur w : Str}, (∀ c ∈ cur, pySpace c = false) →
      w ∈ pySplitAux cur rem → w ≠ [] ∧ ∀ c ∈ w, pySpace c = false := by
  intro rem
  induction rem with
  | nil =>
    intro cur w hcur hw
    cases cur with
    | nil => simp [pySplitAux] at hw
    | cons x xs =>
      simp [pySplitAux] at hw
      subst hw
      refine ⟨by simp, ?_⟩
      intro c hc
      exact hcur c (by simpa [or_comm] using hc)
  | cons x xs ih =>
    intro cur w hcur hw
    by_cases hx : pySpace x = true
    · cases cur with
      | nil =>
        rw [show pySplitAux [] (x :: xs) = pySplitAux [] xs by
          simp [pySplitAux, hx]] at hw
        exact ih (by simp) hw
      | cons y ys =>
        rw [show pySplitAux (y :: ys) (x :: xs) =
            (y :: ys).reverse :: pySplitAux [] xs by
          simp [pySplitAux, hx]] at hw
        rcases List.mem_cons.mp hw with h | h
        · subst h
          refine ⟨by simp, ?_⟩
          intro c hc
          exact hcur c (by simpa [or_comm] using hc)
        · exact ih (by simp) h
    · simp only [Bool.not_eq_true] at hx
      rw [show pySplitAux cur (x :: xs) = pySplitAux (x :: cur) xs by
        simp [pySplitAux, hx]] at hw
      refine ih ?_ hw
      intro c hc
      rcases List.mem_cons.mp hc with h | h
      · subst h; exact hx
      · exact hcur c h

theorem pySplit_mem_token {l w : Str} (hw : w ∈ pySplit l) :
    w ≠ [] ∧ ∀ c ∈ w, pySpace c = false :=
  pySplitAux_mem_token (by simp) hw

theorem pySplitAux_token :
    ∀ {w cur : Str}, (∀ c ∈ w, pySpace c = false) → cur.reverse ++ w ≠ [] →
      pySplitAux cur w = [cur.reverse ++ w] := by
  intro w
  induction w with
  | nil =>
    intro cur _ hne
    cases cur with
    | nil => simp at hne
    | cons y ys => simp [pySplitAux]
  | cons x xs ih =>
    intro cur hall _
    have hx : pySpace x = false := hall x (by simp)
    rw [show pySplitAux cur (x :: xs) = pySplitAux (x :: cur) xs by
      simp [pySplitAux, hx]]
    rw [ih (fun c hc => hall c (by simp [hc])) (by simp)]
    simp

theorem pySplit_token {w : Str} (hne : w ≠ [])
    (hall : ∀ c ∈ w, pySpace c = false) : pySplit w = [w] := by
  unfold pySplit
  rw [pySplitAux_token hall (by simpa using hne)]
  simp

theorem flatten_map_pySplit_pySplit (s : Str) :
    ((pySplit s).map pySplit).flatten = pySplit s := by
  have h : (pySplit s).map pySplit = (pySplit s).map (fun w => [w]) := by
    apply List.map_congr_left
    intro w hw
    exact pySplit_token (pySplit_mem_token hw).1 (pySplit_mem_token hw).2
  rw [h]
  induction pySplit s with
  | nil => rfl
  | cons x xs ih => simpa using ih

theorem strip_of_noSpace {l : Str} (h : ∀ c ∈ l, pySpace c = false) :
    strip l = l := by
  unfold strip
  have h1 : l.dropWhile pySpace = l := by
    cases l with
    | nil => rfl
    | cons x xs => exact List.dropWhile_cons_of_neg (by simp [h x (by simp)])
  rw [h1]
  have h2 : l.reverse.dropWhile pySpace = l.reverse := by
    cases hr : l.reverse with
    | nil => rfl
    | cons x xs =>
      refine List.dropWhile_cons_of_neg ?_
      have hx : x ∈ l := by
        rw [← List.mem_reverse, hr]; simp
      simp [h x hx]
  rw [h2, List.reverse_reverse]

theorem dropWhile_head_false {α : Type} {p : α → Bool} :
    ∀ {A : List α} {x : α} {xs : List α}, A.dropWhile p = x :: xs →
      p x = false := by
  intro A
  induction A with
  | nil => intro x xs h; simp at h
  | cons c r ih =>
    intro x xs h
    by_cases hc : p c = true
    · rw [List.dropWhile_cons_of_pos hc] at h
      exact ih h
    · simp only [Bool.not_eq_true] at hc
      rw [List.dropWhile_cons_of_neg (by simp [hc])] at h
      cases h
      exact hc

theorem dropWhile_dropWhile {α : Type} {p : α → Bool} (A : List α) :
    (A.dropWhile p).dropWhile p = A.dropWhile p := by
  cases h : A.dropWhile p with
  | nil => rfl
  | cons x xs => exact List.dropWhile_cons_of_neg (by simp [dropWhile_head_false h])

theorem exists_prefix_dropWhile {α : Type} (p : α → Bool) :
    ∀ (A : List α), ∃ C, A = C ++ A.dropWhile p := by
  intro A
  induction A with
  | nil => exact ⟨[], rfl⟩
  | cons c r ih =>
    by_cases hc : p c = true
    · rcases ih with ⟨C, hC⟩
      exact ⟨c :: C, by rw [List.dropWhile_cons_of_pos hc]; simpa using hC⟩
    · exact ⟨[], by rw [List.dropWhile_cons_of_neg (by simp [hc])]; rfl⟩

theorem strip_idem (l : Str) : strip (strip l) = strip l := by
  unfold strip
  cases hm : (l.dropWhile pySpace).reverse.dropWhile pySpace with
  | nil => simp
  | cons x xs =>
    rcases exists_prefix_dropWhile pySpace (l.dropWhile pySpace).reverse
      with ⟨C, hC⟩
    rw [hm] at hC
    have hX : l.dropWhile pySpace = (x :: xs).reverse ++ C.reverse := by
      have := congrArg List.reverse hC
      simpa using this
    have hhead : ∀ {y : Char} {ys : Str},
        (x :: xs).reverse ++ C.reverse = y :: ys → pySpace y = false := by
      intro y ys h
      have : l.dropWhile pySpace = y :: ys := by rw [hX, h]
      have h2 : (l.dropWhile pySpace).dropWhile pySpace = l.dropWhile pySpace :=
        dropWhile_dropWhile l
      rw [this] at h2
      exact dropWhile_head_false h2
    have hrev : ((x :: xs).reverse).dropWhile pySpace = (x :: xs).reverse := by
      cases hy : (x :: xs).reverse with
      | nil => simp at hy
      | cons y ys =>
        refine List.dropWhile_cons_of_neg ?_
        have : (x :: xs).reverse ++ C.reverse = y :: (ys ++ C.reverse) := by
          rw [hy]; simp
        simp [hhead this]
    rw [hrev, List.reverse_reverse,
      show (x :: xs).dropWhile pySpace = x :: xs from
        hm ▸ dropWhile_dropWhile (l.dropWhile pySpace).reverse]

/-! ### Tokens of the paragraph and sentence decompositions -/

theorem flatten_map_strip_filter (L : List Str) :
    (((L.map strip).filter (fun s => !s.isEmpty)).map pySplit).flatten =
      (L.map pySplit).flatten := by
  induction L with
  | nil => rfl
  | cons x xs ih =>
    by_cases hx : (strip x).isEmpty = true
    · have hnil : strip x = [] := by
        cases h : strip x with
        | nil => rfl
        | cons y ys => rw [h] at hx; simp at hx
      have hx0 : pySplit x = [] := by
        rw [← pySplit_strip, hnil]; rfl
      simp [hx, ih, hx0]
    · simp only [Bool.not_eq_true] at hx
      simp [hx, ih, pySplit_strip]

theorem splitParaAux_tokens :
    ∀ (cur t : Str), ((splitParaAux cur t).map pySplit).flatten =
      pySplit (cur.reverse ++ t) := by
  intro cur t
  induction cur, t using splitParaAux.induct with
  | case1 cur => simp [splitParaAux]
  | case2 cur c => simp [splitParaAux]
  | case3 cur c d r h ih =>
    simp only [Bool.and_eq_true, decide_eq_true_eq] at h
    rcases h with ⟨hc, hd⟩
    subst hc; subst hd
    rw [show splitParaAux cur ('\n' :: '\n' :: r) =
        cur.reverse :: splitParaAux [] r by simp [splitParaAux]]
    rw [pySplit_append_space (show pySpace '\n' = true from rfl) cur.reverse
      ('\n' :: r), pySplit_cons_space (show pySpace '\n' = true from rfl) r]
    simpa using ih
  | case4 cur c d r h ih =>
    rw [show splitParaAux cur (c :: d :: r) = splitParaAux (c :: cur) (d :: r) by
      simp [splitParaAux, h]]
    rw [ih]
    simp

theorem parasOf_tokens (t : Str) :
    ((parasOf t).map pySplit).flatten = pySplit t := by
  unfold parasOf
  rw [flatten_map_strip_filter]
  simpa using splitParaAux_tokens [] t

theorem sentSplitAux_tokens :
    ∀ (rem : Str) (sk : Bool) (cur : Str), (sk = true → cur = []) →
      ((sentSplitAux sk cur rem).map pySplit).flatten =
        pySplit (cur.reverse ++ rem) := by
  intro rem
  induction rem with
  | nil =>
    intro sk cur _
    cases sk <;> simp [sentSplitAux]
  | cons c r ih =>
    intro sk cur hskcur
    cases sk with
    | true =>
      rw [hskcur rfl]
      by_cases hc : pySpace c = true
      · rw [show sentSplitAux true [] (c :: r) = sentSplitAux true [] r by
          simp [sentSplitAux, hc]]
        rw [ih true [] (fun _ => rfl)]
        simp [pySplit_cons_space hc]
      · simp only [Bool.not_eq_true] at hc
        rw [show sentSplitAux true [] (c :: r) = sentSplitAux false [c] r by
          simp [sentSplitAux, hc]]
        rw [ih false [c] (by simp)]
        simp
    | false =>
      cases cur with
      | nil =>
        rw [show sentSplitAux false [] (c :: r) = sentSplitAux false [c] r by
          simp [sentSplitAux]]
        rw [ih false [c] (by simp)]
        simp
      | cons p cs =>
        by_cases hc : (pySpace c && isSentEnd p) = true
        · obtain ⟨h1, h2⟩ := Bool.and_eq_true_iff.mp hc
          rw [show sentSplitAux false (p :: cs) (c :: r) =
              (p :: cs).reverse :: sentSplitAux true [] r by
            simp [sentSplitAux, h1, h2]]
          rw [pySplit_append_space h1 (p :: cs).reverse r]
          have := ih true [] (fun _ => rfl)
          simp at this
          simp [this]
        · rw [show sentSplitAux false (p :: cs) (c :: r) =
              sentSplitAux false (c :: p :: cs) r by
            simp only [Bool.and_eq_true] at hc
            simp [sentSplitAux]
            intro h1 h2
            exact absurd ⟨h1, h2⟩ hc]
          rw [ih false (c :: p :: cs) (by simp)]
          simp

theorem sentencesOf_tokens (p : Str) :
    ((sentencesOf p).map pySplit).flatten = pySplit p := by
  unfold sentencesOf
  rw [flatten_map_strip_filter]
  simpa using sentSplitAux_tokens p false [] (by simp)

/-! ### The greedy packers preserve the token sequence -/

theorem pySplit_nil : pySplit [] = [] := rfl

theorem tokens_join_space (a b : Str) :
    pySplit (strip (a ++ (if a.isEmpty then [] else [' ']) ++ b)) =
      pySplit a ++ pySplit b := by
  cases a with
  | nil =>
    rw [show ([] : Str) ++ (if ([] : Str).isEmpty then [] else [' ']) ++ b = b
      from rfl, pySplit_strip]
    rfl
  | cons x xs =>
    rw [pySplit_strip, if_neg (by simp), List.append_assoc]
    rw [show ([' '] ++ b : Str) = ' ' :: b from rfl]
    exact pySplit_append_space (show pySpace ' ' = true from rfl) (x :: xs) b

theorem tokens_join_para (a b : Str) :
    pySplit (strip (a ++ (if a.isEmpty then [] else chars ("\n\n")) ++ b)) =
      pySplit a ++ pySplit b := by
  cases a with
  | nil =>
    rw [show ([] : Str) ++ (if ([] : Str).isEmpty then [] else chars ("\n\n")) ++ b
      = b from rfl, pySplit_strip]
    rfl
  | cons x xs =>
    rw [pySplit_strip, if_neg (by simp), List.append_assoc]
    rw [show (chars ("\n\n") ++ b : Str) = '\n' :: '\n' :: b from rfl]
    rw [pySplit_append_space (show pySpace '\n' = true from rfl) (x :: xs)
        ('\n' :: b),
      pySplit_cons_space (show pySpace '\n' = true from rfl) b]

theorem flatten_map_tail (L : List Str) (fin : Str) :
    (((L ++ (if fin.isEmpty then [] else [fin])).map pySplit)).flatten =
      (L.map pySplit).flatten ++ pySplit fin := by
  cases fin with
  | nil => simp [pySplit_nil]
  | cons x xs => simp

theorem packWordsAux_tokens (cfg : Config) :
    ∀ (ws : List Str) (wbuf : Str),
      ((packWordsAux cfg wbuf ws).1.map pySplit).flatten ++
          pySplit (packWordsAux cfg wbuf ws).2 =
        pySplit wbuf ++ (ws.map pySplit).flatten := by
  intro ws
  induction ws with
  | nil => intro wbuf; simp [packWordsAux]
  | cons w ws ih =>
    intro wbuf
    have hstep : packWordsAux cfg wbuf (w :: ws) =
        if fits cfg (strip (wbuf ++ (if wbuf.isEmpty then [] else [' ']) ++ w))
        then packWordsAux cfg
          (strip (wbuf ++ (if wbuf.isEmpty then [] else [' ']) ++ w)) ws
        else ((if wbuf.isEmpty then (packWordsAux cfg w ws).1
               else wbuf :: (packWordsAux cfg w ws).1),
              (packWordsAux cfg w ws).2) := rfl
    by_cases hf : fits cfg
        (strip (wbuf ++ (if wbuf.isEmpty then [] else [' ']) ++ w)) = true
    · rw [hstep, if_pos hf, ih, tokens_join_space, List.append_assoc]
      rfl
    · rw [hstep, if_neg hf]
      cases wbuf with
      | nil =>
        simp only [List.isEmpty_nil, if_pos]
        rw [show pySplit [] ++ (List.map pySplit (w :: ws)).flatten =
          pySplit w ++ (List.map pySplit ws).flatten from rfl]
        exact ih w
      | cons x xs =>
        simp only [List.isEmpty_cons, if_neg, Bool.false_eq_true,
          not_false_eq_true]
        rw [show List.map pySplit ((x :: xs) :: (packWordsAux cfg w ws).1) =
          pySplit (x :: xs) :: List.map pySplit (packWordsAux cfg w ws).1
          from rfl]
        rw [List.flatten_cons, List.append_assoc, ih w]
        rw [show (List.map pySplit (w :: ws)).flatten =
          pySplit w ++ (List.map pySplit ws).flatten from rfl]

theorem packWords_tokens (cfg : Config) (s : Str) :
    ((packWords cfg s).map pySplit).flatten = pySplit s := by
  unfold packWords
  rw [flatten_map_tail, packWordsAux_tokens cfg (pySplit s) []]
  rw [pySplit_nil, List.nil_append]
  exact flatten_map_pySplit_pySplit s

theorem packSentsAux_tokens (cfg : Config) :
    ∀ (ss : List Str) (sbuf : Str),
      ((packSentsAux cfg sbuf ss).1.map pySplit).flatten ++
          pySplit (packSentsAux cfg sbuf ss).2 =
        pySplit sbuf ++ (ss.map pySplit).flatten := by
  intro ss
  induction ss with
  | nil => intro sbuf; simp [packSentsAux]
  | cons s ss ih =>
    intro sbuf
    have hstep : packSentsAux cfg sbuf (s :: ss) =
        if fits cfg (strip (sbuf ++ (if sbuf.isEmpty then [] else [' ']) ++ s))
        then packSentsAux cfg
          (strip (sbuf ++ (if sbuf.isEmpty then [] else [' ']) ++ s)) ss
        else if fits cfg s then
          ((if sbuf.isEmpty then [] else [sbuf]) ++ (packSentsAux cfg s ss).1,
           (packSentsAux cfg s ss).2)
        else
          ((if sbuf.isEmpty then [] else [sbuf]) ++ packWords cfg s ++
            (packSentsAux cfg [] ss).1,
           (packSentsAux cfg [] ss).2) := rfl
    have hpre : ∀ L : List Str,
        (((if sbuf.isEmpty then ([] : List Str) else [sbuf]) ++ L).map
            pySplit).flatten =
          pySplit sbuf ++ (L.map pySplit).flatten := by
      intro L
      cases sbuf with
      | nil => simp [pySplit_nil]
      | cons x xs => simp
    by_cases hf : fits cfg
        (strip (sbuf ++ (if sbuf.isEmpty then [] else [' ']) ++ s)) = true
    · rw [hstep, if_pos hf, ih, tokens_join_space, List.append_assoc]
      rfl
    · by_cases hs : fits cfg s = true
      · rw [hstep, if_neg hf, if_pos hs]
        simp only
        rw [hpre, List.append_assoc, ih s]
        rw [show (List.map pySplit (s :: ss)).flatten =
          pySplit s ++ (List.map pySplit ss).flatten from rfl]
      · rw [hstep, if_neg hf, if_neg hs]
        simp only
        rw [List.append_assoc, hpre, List.map_append, List.flatten_append,
          packWords_tokens, List.append_assoc, List.append_assoc, ih []]
        rw [pySplit_nil, List.nil_append]
        rw [show (List.map pySplit (s :: ss)).flatten =
          pySplit s ++ (List.map pySplit ss).flatten from rfl]

theorem packSents_tokens (cfg : Config) (p : Str) :
    ((packSents cfg p).map pySplit).flatten = pySplit p := by
  unfold packSents
  rw [flatten_map_tail, packSentsAux_tokens cfg (sentencesOf p) []]
  rw [pySplit_nil, List.nil_append]
  exact sentencesOf_tokens p

theorem pySplit_strip_tail (x : Str) :
    (((if (strip x).isEmpty then ([] : List Str) else [strip x]).map
        pySplit)).flatten = pySplit x := by
  by_cases hc : (strip x).isEmpty = true
  · have hnil : strip x = [] := by
      cases h : strip x with
      | nil => rfl
      | cons y ys => rw [h] at hc; simp at hc
    have h0 : pySplit x = [] := by rw [← pySplit_strip, hnil]; rfl
    simp [hc, h0]
  · simp only [Bool.not_eq_true] at hc
    simp [hc, pySplit_strip]

theorem packParasAux_tokens (cfg : Config) :
    ∀ (ps : List Str) (cur : Str),
      ((packParasAux cfg cur ps).1.map pySplit).flatten ++
          pySplit (packParasAux cfg cur ps).2 =
        pySplit cur ++ (ps.map pySplit).flatten := by
  intro ps
  induction ps with
  | nil => intro cur; simp [packParasAux]
  | cons p ps ih =>
    intro cur
    have hstep : packParasAux cfg cur (p :: ps) =
        if ((strip (cur ++ (if cur.isEmpty then [] else chars ("\n\n")) ++
              p)).isEmpty ||
            fits cfg (strip (cur ++ (if cur.isEmpty then [] else
              chars ("\n\n")) ++ p)))
        then packParasAux cfg
          (strip (cur ++ (if cur.isEmpty then [] else chars ("\n\n")) ++ p)) ps
        else if fits cfg p then
          ((if (strip cur).isEmpty then [] else [strip cur]) ++
            (packParasAux cfg p ps).1,
           (packParasAux cfg p ps).2)
        else
          ((if (strip cur).isEmpty then [] else [strip cur]) ++
            packSents cfg p ++ (packParasAux cfg [] ps).1,
           (packParasAux cfg [] ps).2) := rfl
    have hfl : ∀ L : List Str,
        (((if (strip cur).isEmpty then ([] : List Str) else [strip cur]) ++
            L).map pySplit).flatten =
          pySplit cur ++ (L.map pySplit).flatten := by
      intro L
      have := pySplit_strip_tail cur
      by_cases hc : (strip cur).isEmpty = true
      · simp only [hc, if_pos] at this ⊢
        simp at this
        simp [this]
      · simp only [hc, Bool.false_eq_true, not_false_eq_true, if_neg] at this ⊢
        simp at this
        simp [this]
    by_cases htry : ((strip (cur ++ (if cur.isEmpty then [] else
        chars ("\n\n")) ++ p)).isEmpty ||
        fits cfg (strip (cur ++ (if cur.isEmpty then [] else
          chars ("\n\n")) ++ p))) = true
    · rw [hstep, if_pos htry, ih, tokens_join_para, List.append_assoc]
      rfl
    · by_cases hp : fits cfg p = true
      · rw [hstep, if_neg htry, if_pos hp]
        simp only
        rw [hfl, List.append_assoc, ih p]
        rw [show (List.map pySplit (p :: ps)).flatten =
          pySplit p ++ (List.map pySplit ps).flatten from rfl]
      · rw [hstep, if_neg htry, if_neg hp]
        simp only
        rw [List.append_assoc, hfl, List.map_append, List.flatten_append,
          packSents_tokens, List.append_assoc, List.append_assoc, ih []]
        rw [pySplit_nil, List.nil_append]
        rw [show (List.map pySplit (p :: ps)).flatten =
          pySplit p ++ (List.map pySplit ps).flatten from rfl]

theorem buildChunks_tokens (cfg : Config) (ps : List Str) :
    ((buildChunks cfg ps).map pySplit).flatten = (ps.map pySplit).flatten := by
  unfold buildChunks
  simp only
  rw [List.map_append, List.flatten_append, pySplit_strip_tail,
    packParasAux_tokens cfg ps [], pySplit_nil, List.nil_append]

/-! ### The verification pass and the budget claims -/

theorem verifyChunks_ok_bound (cfg : Config) :
    ∀ (cs : List Str) (i : Nat), verifyChunks cfg i cs = Except.ok () →
      ∀ c ∈ cs, chunkBytes cfg c ≤ chunkLimit cfg := by
  intro cs
  induction cs with
  | nil => intro i _ c hc; simp at hc
  | cons x xs ih =>
    intro i h c hc
    have hstep : verifyChunks cfg i (x :: xs) =
        if chunkLimit cfg < chunkBytes cfg x then
          Except.error ⟨i, chunkBytes cfg x⟩
        else verifyChunks cfg (i + 1) xs := rfl
    by_cases hx : chunkLimit cfg < chunkBytes cfg x
    · rw [hstep, if_pos hx] at h
      exact absurd h (by simp)
    · rw [hstep, if_neg hx] at h
      rcases List.mem_cons.mp hc with hcx | hcx
      · subst hcx
        exact Nat.le_of_not_lt hx
      · exact ih (i + 1) h c hcx

theorem split_ok_inv (cfg : Config) (raw : Str) (chunks : List Str)
    (h : split_text_sentence_aware cfg raw = Except.ok chunks) :
    ((normalizeText raw).isEmpty = true ∧ chunks = []) ∨
      ((normalizeText raw).isEmpty = false ∧
        chunks = buildChunks cfg (parasOf (normalizeText raw)) ∧
        verifyChunks cfg 1 (buildChunks cfg (parasOf (normalizeText raw))) =
          Except.ok ()) := by
  have hdef : split_text_sentence_aware cfg raw =
      if (normalizeText raw).isEmpty then Except.ok []
      else
        match verifyChunks cfg 1 (buildChunks cfg (parasOf (normalizeText raw)))
          with
        | Except.ok _ => Except.ok (buildChunks cfg (parasOf (normalizeText raw)))
        | Except.error e => Except.error e := rfl
  rw [hdef] at h
  by_cases ht : (normalizeText raw).isEmpty = true
  · rw [if_pos ht] at h
    left
    exact ⟨ht, by injection h with h2; exact h2.symm⟩
  · rw [if_neg ht] at h
    right
    cases hv : verifyChunks cfg 1 (buildChunks cfg (parasOf (normalizeText raw)))
      with
    | ok u =>
      cases u
      rw [hv] at h
      refine ⟨by simpa using ht, by injection h with h2; exact h2.symm, ?_⟩
      rfl
    | error e =>
      rw [hv] at h
      exact absurd h (by simp)

/-- C1: for every configuration and document, every chunk returned by
`split_text_sentence_aware` fits the configured budget: in auto-markup
mode (`USE_SSML and SSML_MODE == "auto"`) the UTF-8 byte length of the
markup-expanded chunk is at most `MAX_SSML_BYTES`, and otherwise the
UTF-8 byte length of the plain chunk text is at most `MAX_TEXT_BYTES`.
(In the unsplittable-single-word case the function raises instead of
returning, so no oversized chunk is ever returned.) -/
theorem C1_chunks_fit_budget (cfg : Config) (raw : Str) (chunks : List Str)
    (h : split_text_sentence_aware cfg raw = Except.ok chunks) :
    ∀ c ∈ chunks,
      (autoMode cfg = true →
        utf8_len (auto_text_to_ssml cfg c) ≤ cfg.maxSSMLBytes) ∧
      (autoMode cfg = false → utf8_len c ≤ cfg.maxTextBytes) := by
  intro c hc
  rcases split_ok_inv cfg raw chunks h with ⟨_, hnil⟩ | ⟨_, hch, hv⟩
  · subst hnil; simp at hc
  · subst hch
    have hb := verifyChunks_ok_bound cfg _ 1 hv c hc
    constructor
    · intro hauto
      unfold chunkBytes chunkLimit ssml_bytes_for_text_chunk at hb
      rw [if_pos hauto, if_pos hauto] at hb
      exact hb
    · intro hnotauto
      unfold chunkBytes chunkLimit at hb
      rw [if_neg (by simp [hnotauto]), if_neg (by simp [hnotauto])] at hb
      exact hb

/-- Witness for C1 at a concrete input: the default configuration on the
document `"Hi."` yields the single chunk `"Hi."`, whose expanded SSML is
within the default 4700-byte budget. -/
theorem C1_chunks_fit_budget_witness :
    split_text_sentence_aware defaultConfig (chars ("Hi.")) =
        Except.ok [chars ("Hi.")] ∧
      utf8_len (auto_text_to_ssml defaultConfig (chars ("Hi."))) ≤ 4700 := by
  constructor
  · rfl
  · exact (C1_chunks_fit_budget defaultConfig (chars ("Hi.")) [chars ("Hi.")]
      rfl (chars ("Hi.")) (by simp)).1 rfl

/-- C2: segmentation is lossless on text content.  Concatenating the
chunks in order and ignoring the separator whitespace that the segmenter
re-inserts between units (paragraph separators, single spaces) yields
exactly the whitespace-delimited token sequence of the normalized
document: no characters dropped, duplicated, or reordered. -/
theorem C2_lossless_concat (cfg : Config) (raw : Str) (chunks : List Str)
    (h : split_text_sentence_aware cfg raw = Except.ok chunks) :
    (chunks.map pySplit).flatten = pySplit (normalizeText raw) := by
  rcases split_ok_inv cfg raw chunks h with ⟨ht, hnil⟩ | ⟨_, hch, _⟩
  · subst hnil
    have : normalizeText raw = [] := by
      cases h2 : normalizeText raw with
      | nil => rfl
      | cons y ys => rw [h2] at ht; simp at ht
    rw [this]
    rfl
  · subst hch
    rw [buildChunks_tokens, parasOf_tokens]

/-- Witness for C2 at a concrete input: the default configuration on
`"Hello world. This is a test."`. -/
theorem C2_lossless_concat_witness :
    split_text_sentence_aware defaultConfig
        (chars ("Hello world. This is a test.")) =
      Except.ok [chars ("Hello world. This is a test.")] ∧
    (([chars ("Hello world. This is a test.")]).map pySplit).flatten =
      pySplit (normalizeText (chars ("Hello world. This is a test."))) := by
  constructor
  · rfl
  · exact C2_lossless_concat defaultConfig
      (chars ("Hello world. This is a test."))
      [chars ("Hello world. This is a test.")] rfl

/-! ### Non-emptiness of the produced chunks -/

theorem strip_ne_nil_of_mem {l : Str} {c : Char} (hc : c ∈ l)
    (hns : pySpace c = false) : strip l ≠ [] := by
  intro h
  have := strip_eq_nil_allspace h c hc
  rw [hns] at this
  exact Bool.false_ne_true this

theorem exists_nonspace_of_goodChunk {x : Str} (hx : GoodChunk x) :
    ∃ c ∈ x, pySpace c = false := by
  rcases hx with ⟨hne, hstr⟩
  by_contra hcon
  push_neg at hcon
  have hall : ∀ c ∈ x, pySpace c = true := by
    intro c hc
    have := hcon c hc
    cases h : pySpace c with
    | false => exact absurd h this
    | true => rfl
  exact hne (hstr ▸ strip_allspace hall)

theorem goodChunk_strip_join {buf sep x : Str} (hx : GoodChunk x) :
    GoodChunk (strip (buf ++ sep ++ x)) := by
  rcases exists_nonspace_of_goodChunk hx with ⟨c, hc, hns⟩
  refine ⟨strip_ne_nil_of_mem ?_ hns, strip_idem _⟩
  simp [hc]

theorem goodChunk_token {w : Str} (hne : w ≠ [])
    (hall : ∀ c ∈ w, pySpace c = false) : GoodChunk w :=
  ⟨hne, strip_of_noSpace hall⟩

theorem goodChunk_of_strip_filter {L : List Str} {s : Str}
    (hs : s ∈ (L.map strip).filter (fun x => !x.isEmpty)) : GoodChunk s := by
  rcases List.mem_filter.mp hs with ⟨hmem, hne⟩
  rcases List.mem_map.mp hmem with ⟨t, _, rfl⟩
  refine ⟨?_, strip_idem t⟩
  intro h
  rw [h] at hne
  simp at hne

theorem sentencesOf_good {p s : Str} (hs : s ∈ sentencesOf p) : GoodChunk s :=
  goodChunk_of_strip_filter hs

theorem parasOf_good {t s : Str} (hs : s ∈ parasOf t) : GoodChunk s :=
  goodChunk_of_strip_filter hs

theorem packWordsAux_good (cfg : Config) :
    ∀ (ws : List Str) (wbuf : Str), GoodBuf wbuf →
      (∀ w ∈ ws, w ≠ [] ∧ ∀ c ∈ w, pySpace c = false) →
      (∀ c ∈ (packWordsAux cfg wbuf ws).1, GoodChunk c) ∧
        GoodBuf (packWordsAux cfg wbuf ws).2 := by
  intro ws
  induction ws with
  | nil =>
    intro wbuf hbuf _
    exact ⟨by intro c hc; simp [packWordsAux] at hc, hbuf⟩
  | cons w ws ih =>
    intro wbuf hbuf hws
    have hw : GoodChunk w :=
      goodChunk_token (hws w (by simp)).1 (hws w (by simp)).2
    have hws2 : ∀ v ∈ ws, v ≠ [] ∧ ∀ c ∈ v, pySpace c = false :=
      fun v hv => hws v (by simp [hv])
    have hstep : packWordsAux cfg wbuf (w :: ws) =
        if fits cfg (strip (wbuf ++ (if wbuf.isEmpty then [] else [' ']) ++ w))
        then packWordsAux cfg
          (strip (wbuf ++ (if wbuf.isEmpty then [] else [' ']) ++ w)) ws
        else ((if wbuf.isEmpty then (packWordsAux cfg w ws).1
               else wbuf :: (packWordsAux cfg w ws).1),
              (packWordsAux cfg w ws).2) := rfl
    by_cases hf : fits cfg
        (strip (wbuf ++ (if wbuf.isEmpty then [] else [' ']) ++ w)) = true
    · rw [hstep, if_pos hf]
      exact ih _ (Or.inr (goodChunk_strip_join hw)) hws2
    · rw [hstep, if_neg hf]
      have hrec := ih w (Or.inr hw) hws2
      cases wbuf with
      | nil =>
        simpa using hrec
      | cons x xs =>
        refine ⟨?_, hrec.2⟩
        intro c hc
        rw [show (if (x :: xs : Str).isEmpty then (packWordsAux cfg w ws).1
            else (x :: xs) :: (packWordsAux cfg w ws).1) =
            (x :: xs) :: (packWordsAux cfg w ws).1 from rfl] at hc
        rcases List.mem_cons.mp hc with h | h
        · subst h
          rcases hbuf with h2 | h2
          · exact absurd h2 (by simp)
          · exact h2
        · exact hrec.1 c h

theorem packWords_good (cfg : Config) (s : Str) :
    ∀ c ∈ packWords cfg s, GoodChunk c := by
  intro c hc
  unfold packWords at hc
  have htok : ∀ w ∈ pySplit s, w ≠ [] ∧ ∀ d ∈ w, pySpace d = false :=
    fun w hw => pySplit_mem_token hw
  have hrec := packWordsAux_good cfg (pySplit s) [] (Or.inl rfl) htok
  simp only at hc
  rcases List.mem_append.mp hc with h | h
  · exact hrec.1 c h
  · rcases hfin : (packWordsAux cfg [] (pySplit s)).2 with _ | ⟨y, ys⟩
    · rw [hfin] at h; simp at h
    · rw [hfin] at h
      simp at h
      subst h
      rcases hrec.2 with h2 | h2
      · rw [hfin] at h2; exact absurd h2 (by simp)
      · rw [hfin] at h2; exact h2

theorem packSentsAux_good (cfg : Config) :
    ∀ (ss : List Str) (sbuf : Str), GoodBuf sbuf →
      (∀ s ∈ ss, GoodChunk s) →
      (∀ c ∈ (packSentsAux cfg sbuf ss).1, GoodChunk c) ∧
        GoodBuf (packSentsAux cfg sbuf ss).2 := by
  intro ss
  induction ss with
  | nil =>
    intro sbuf hbuf _
    exact ⟨by intro c hc; simp [packSentsAux] at hc, hbuf⟩
  | cons s ss ih =>
    intro sbuf hbuf hss
    have hs0 : GoodChunk s := hss s (by simp)
    have hss2 : ∀ v ∈ ss, GoodChunk v := fun v hv => hss v (by simp [hv])
    have hstep : packSentsAux cfg sbuf (s :: ss) =
        if fits cfg (strip (sbuf ++ (if sbuf.isEmpty then [] else [' ']) ++ s))
        then packSentsAux cfg
          (strip (sbuf ++ (if sbuf.isEmpty then [] else [' ']) ++ s)) ss
        else if fits cfg s then
          ((if sbuf.isEmpty then [] else [sbuf]) ++ (packSentsAux cfg s ss).1,
           (packSentsAux cfg s ss).2)
        else
          ((if sbuf.isEmpty then [] else [sbuf]) ++ packWords cfg s ++
            (packSentsAux cfg [] ss).1,
           (packSentsAux cfg [] ss).2) := rfl
    have hpre : ∀ c ∈ (if sbuf.isEmpty then ([] : List Str) else [sbuf]),
        GoodChunk c := by
      intro c hc
      cases sbuf with
      | nil => simp at hc
      | cons x xs =>
        rw [if_neg (by simp)] at hc
        simp at hc
        subst hc
        rcases hbuf with h2 | h2
        · exact absurd h2 (by simp)
        · exact h2
    by_cases hf : fits cfg
        (strip (sbuf ++ (if sbuf.isEmpty then [] else [' ']) ++ s)) = true
    · rw [hstep, if_pos hf]
      exact ih _ (Or.inr (goodChunk_strip_join hs0)) hss2
    · by_cases hfs : fits cfg s = true
      · rw [hstep, if_neg hf, if_pos hfs]
        have hrec := ih s (Or.inr hs0) hss2
        refine ⟨?_, hrec.2⟩
        intro c hc
        simp only at hc
        rcases List.mem_append.mp hc with h | h
        · exact hpre c h
        · exact hrec.1 c h
      · rw [hstep, if_neg hf, if_neg hfs]
        have hrec := ih [] (Or.inl rfl) hss2
        refine ⟨?_, hrec.2⟩
        intro c hc
        simp only at hc
        rcases List.mem_append.mp hc with h | h
        · rcases List.mem_append.mp h with h2 | h2
          · exact hpre c h2
          · exact packWords_good cfg s c h2
        · exact hrec.1 c h

theorem packSents_good (cfg : Config) (p : Str) :
    ∀ c ∈ packSents cfg p, GoodChunk c := by
  intro c hc
  unfold packSents at hc
  have hrec := packSentsAux_good cfg (sentencesOf p) [] (Or.inl rfl)
    (fun s hs => sentencesOf_good hs)
  simp only at hc
  rcases List.mem_append.mp hc with h | h
  · exact hrec.1 c h
  · rcases hfin : (packSentsAux cfg [] (sentencesOf p)).2 with _ | ⟨y, ys⟩
    · rw [hfin] at h; simp at h
    · rw [hfin] at h
      simp at h
      subst h
      rcases hrec.2 with h2 | h2
      · rw [hfin] at h2; exact absurd h2 (by simp)
      · rw [hfin] at h2; exact h2

theorem packParasAux_good (cfg : Config) :
    ∀ (ps : List Str) (cur : Str), GoodBuf cur →
      (∀ p ∈ ps, GoodChunk p) →
      (∀ c ∈ (packParasAux cfg cur ps).1, GoodChunk c) ∧
        GoodBuf (packParasAux cfg cur ps).2 := by
  intro ps
  induction ps with
  | nil =>
    intro cur hbuf _
    exact ⟨by intro c hc; simp [packParasAux] at hc, hbuf⟩
  | cons p ps ih =>
    intro cur hbuf hps
    have hp0 : GoodChunk p := hps p (by simp)
    have hps2 : ∀ v ∈ ps, GoodChunk v := fun v hv => hps v (by simp [hv])
    have hstep : packParasAux cfg cur (p :: ps) =
        if ((strip (cur ++ (if cur.isEmpty then [] else chars ("\n\n")) ++
              p)).isEmpty ||
            fits cfg (strip (cur ++ (if cur.isEmpty then [] else
              chars ("\n\n")) ++ p)))
        then packParasAux cfg
          (strip (cur ++ (if cur.isEmpty then [] else chars ("\n\n")) ++ p)) ps
        else if fits cfg p then
          ((if (strip cur).isEmpty then [] else [strip cur]) ++
            (packParasAux cfg p ps).1,
           (packParasAux cfg p ps).2)
        else
          ((if (strip cur).isEmpty then [] else [strip cur]) ++
            packSents cfg p ++ (packParasAux cfg [] ps).1,
           (packParasAux cfg [] ps).2) := rfl
    have hfl : ∀ c ∈ (if (strip cur).isEmpty then ([] : List Str)
        else [strip cur]), GoodChunk c := by
      intro c hc
      rcases hsc : strip cur with _ | ⟨y, ys⟩
      · rw [hsc] at hc; simp at hc
      · rw [hsc] at hc
        rw [if_neg (by simp)] at hc
        simp at hc
        subst hc
        exact ⟨by simp, by rw [← hsc]; exact hsc ▸ strip_idem cur⟩
    by_cases htry : ((strip (cur ++ (if cur.isEmpty then [] else
        chars ("\n\n")) ++ p)).isEmpty ||
        fits cfg (strip (cur ++ (if cur.isEmpty then [] else
          chars ("\n\n")) ++ p))) = true
    · rw [hstep, if_pos htry]
      exact ih _ (Or.inr (goodChunk_strip_join hp0)) hps2
    · by_cases hfp : fits cfg p = true
      · rw [hstep, if_neg htry, if_pos hfp]
        have hrec := ih p (Or.inr hp0) hps2
        refine ⟨?_, hrec.2⟩
        intro c hc
        simp only at hc
        rcases List.mem_append.mp hc with h | h
        · exact hfl c h
        · exact hrec.1 c h
      · rw [hstep, if_neg htry, if_neg hfp]
        have hrec := ih [] (Or.inl rfl) hps2
        refine ⟨?_, hrec.2⟩
        intro c hc
        simp only at hc
        rcases List.mem_append.mp hc with h | h
        · rcases List.mem_append.mp h with h2 | h2
          · exact hfl c h2
          · exact packSents_good cfg p c h2
        · exact hrec.1 c h

theorem buildChunks_good (cfg : Config) (ps : List Str)
    (hps : ∀ p ∈ ps, GoodChunk p) :
    ∀ c ∈ buildChunks cfg ps, GoodChunk c := by
  intro c hc
  unfold buildChunks at hc
  have hrec := packParasAux_good cfg ps [] (Or.inl rfl) hps
  simp only at hc
  rcases List.mem_append.mp hc with h | h
  · exact hrec.1 c h
  · rcases hfin : strip (packParasAux cfg [] ps).2 with _ | ⟨y, ys⟩
    · rw [hfin] at h; simp at h
    · rw [hfin] at h
      simp at h
      subst h
      exact ⟨by simp, by rw [← hfin]; exact hfin ▸ strip_idem _⟩

/-- C8: every chunk returned by the segmenter is non-empty and not
whitespace-only. -/
theorem C8_chunks_nonempty (cfg : Config) (raw : Str) (chunks : List Str)
    (h : split_text_sentence_aware cfg raw = Except.ok chunks) :
    ∀ c ∈ chunks, c ≠ [] ∧ strip c ≠ [] := by
  intro c hc
  rcases split_ok_inv cfg raw chunks h with ⟨_, hnil⟩ | ⟨_, hch, _⟩
  · subst hnil; simp at hc
  · subst hch
    have hg := buildChunks_good cfg _ (fun p hp => parasOf_good hp) c hc
    exact ⟨hg.1, by rw [hg.2]; exact hg.1⟩

/-- Witness for C8 at a concrete input. -/
theorem C8_chunks_nonempty_witness :
    split_text_sentence_aware defaultConfig (chars ("One. Two.")) =
        Except.ok [chars ("One. Two.")] ∧
      chars ("One. Two.") ≠ [] ∧ strip (chars ("One. Two.")) ≠ [] := by
  refine ⟨rfl, ?_⟩
  exact C8_chunks_nonempty defaultConfig (chars ("One. Two."))
    [chars ("One. Two.")] rfl (chars ("One. Two.")) (by simp)

/-! ### The unsplittable single-word fatal case -/

theorem fits_iff (cfg : Config) (c : Str) :
    fits cfg c = true ↔ chunkBytes cfg c ≤ chunkLimit cfg := by
  unfold fits chunkBytes chunkLimit
  by_cases h : autoMode cfg = true
  · simp [h]
  · simp only [Bool.not_eq_true] at h
    simp [h]

theorem replaceCRLF_of_noCR {l : Str} (h : ∀ c ∈ l, c ≠ '\r') :
    replaceCRLF l = l := by
  induction l using replaceCRLF.induct with
  | case1 => rfl
  | case2 c => rfl
  | case3 c d r hcd ih =>
    simp only [Bool.and_eq_true, decide_eq_true_eq] at hcd
    exact absurd hcd.1 (h c (by simp))
  | case4 c d r hcd ih =>
    rw [show replaceCRLF (c :: d :: r) = c :: replaceCRLF (d :: r) by
      simp [replaceCRLF, hcd]]
    rw [ih (fun x hx => h x (by simp [List.mem_cons] at hx ⊢; tauto))]

theorem replaceCR1_of_noCR {l : Str} (h : ∀ c ∈ l, c ≠ '\r') :
    replaceCR1 l = l := by
  unfold replaceCR1
  rw [List.map_congr_left (fun c hc => if_neg (h c hc))]
  exact List.map_id l

theorem normalizeText_of_noSpace {w : Str} (h : ∀ c ∈ w, pySpace c = false) :
    normalizeText w = w := by
  have hnr : ∀ c ∈ w, c ≠ '\r' := by
    intro c hc he
    have := h c hc
    rw [he] at this
    exact absurd this (by decide)
  unfold normalizeText
  rw [replaceCRLF_of_noCR hnr, replaceCR1_of_noCR hnr, strip_of_noSpace h]

theorem splitParaAux_of_noNL :
    ∀ (cur t : Str), (∀ c ∈ t, c ≠ '\n') →
      splitParaAux cur t = [cur.reverse ++ t] := by
  intro cur t
  induction cur, t using splitParaAux.induct with
  | case1 cur => intro _; simp [splitParaAux]
  | case2 cur c => intro _; simp [splitParaAux]
  | case3 cur c d r hcd ih =>
    intro h
    simp only [Bool.and_eq_true, decide_eq_true_eq] at hcd
    exact absurd hcd.1 (h c (by simp))
  | case4 cur c d r hcd ih =>
    intro h
    rw [show splitParaAux cur (c :: d :: r) =
        splitParaAux (c :: cur) (d :: r) by simp [splitParaAux, hcd]]
    rw [ih (fun x hx => h x (by simp [List.mem_cons] at hx ⊢; tauto))]
    simp

theorem parasOf_single {w : Str} (hne : w ≠ [])
    (h : ∀ c ∈ w, pySpace c = false) : parasOf w = [w] := by
  have hnl : ∀ c ∈ w, c ≠ '\n' := by
    intro c hc he
    have := h c hc
    rw [he] at this
    exact absurd this (by decide)
  unfold parasOf
  rw [splitParaAux_of_noNL [] w hnl]
  simp only [List.reverse_nil, List.nil_append, List.map_cons, List.map_nil]
  rw [strip_of_noSpace h]
  rw [List.filter_cons_of_pos (by simpa using hne)]
  rfl

theorem sentSplitAux_of_noSpace {w : Str} (h : ∀ c ∈ w, pySpace c = false) :
    ∀ cur, sentSplitAux false cur w = [cur.reverse ++ w] := by
  induction w with
  | nil => intro cur; simp [sentSplitAux]
  | cons c r ih =>
    intro cur
    have hc : pySpace c = false := h c (by simp)
    rw [show sentSplitAux false cur (c :: r) =
        sentSplitAux false (c :: cur) r by simp [sentSplitAux, hc]]
    rw [ih (fun x hx => h x (by simp [hx])) (c :: cur)]
    simp

theorem sentencesOf_single {w : Str} (hne : w ≠ [])
    (h : ∀ c ∈ w, pySpace c = false) : sentencesOf w = [w] := by
  unfold sentencesOf
  rw [sentSplitAux_of_noSpace h []]
  simp only [List.reverse_nil, List.nil_append, List.map_cons, List.map_nil]
  rw [strip_of_noSpace h]
  rw [List.filter_cons_of_pos (by simpa using hne)]
  rfl

theorem packWords_single {cfg : Config} {w : Str} (hne : w ≠ [])
    (h : ∀ c ∈ w, pySpace c = false) (hf : fits cfg w = false) :
    packWords cfg w = [w] := by
  have hcand : strip (([] : Str) ++ (if ([] : Str).isEmpty then [] else [' '])
      ++ w) = w := by
    rw [show (([] : Str) ++ (if ([] : Str).isEmpty then [] else [' '])
      ++ w) = w from rfl]
    exact strip_of_noSpace h
  have h1 : packWordsAux cfg [] [w] = ([], w) := by
    rw [show packWordsAux cfg [] [w] =
        if fits cfg (strip (([] : Str) ++ (if ([] : Str).isEmpty then []
          else [' ']) ++ w))
        then packWordsAux cfg (strip (([] : Str) ++
          (if ([] : Str).isEmpty then [] else [' ']) ++ w)) []
        else ((if ([] : Str).isEmpty then (packWordsAux cfg w []).1
               else [] :: (packWordsAux cfg w []).1),
              (packWordsAux cfg w []).2) from rfl]
    rw [hcand, if_neg (by simp [hf])]
    rfl
  unfold packWords
  rw [pySplit_token hne h, h1]
  show ([] : List Str) ++ (if w.isEmpty then [] else [w]) = [w]
  rw [if_neg (by simp [hne])]
  rfl

theorem packSents_single {cfg : Config} {w : Str} (hne : w ≠ [])
    (h : ∀ c ∈ w, pySpace c = false) (hf : fits cfg w = false) :
    packSents cfg w = [w] := by
  have hcand : strip (([] : Str) ++ (if ([] : Str).isEmpty then [] else [' '])
      ++ w) = w := by
    rw [show (([] : Str) ++ (if ([] : Str).isEmpty then [] else [' '])
      ++ w) = w from rfl]
    exact strip_of_noSpace h
  have h1 : packSentsAux cfg [] [w] =
      (([] : List Str) ++ packWords cfg w ++ ([] : List Str), ([] : Str)) := by
    rw [show packSentsAux cfg [] [w] =
        if fits cfg (strip (([] : Str) ++ (if ([] : Str).isEmpty then []
          else [' ']) ++ w))
        then packSentsAux cfg (strip (([] : Str) ++
          (if ([] : Str).isEmpty then [] else [' ']) ++ w)) []
        else if fits cfg w then
          ((if ([] : Str).isEmpty then [] else [([] : Str)]) ++
            (packSentsAux cfg w []).1, (packSentsAux cfg w []).2)
        else
          ((if ([] : Str).isEmpty then [] else [([] : Str)]) ++
            packWords cfg w ++ (packSentsAux cfg [] []).1,
           (packSentsAux cfg [] []).2) from rfl]
    rw [hcand, if_neg (by simp [hf]), if_neg (by simp [hf])]
    rfl
  unfold packSents
  rw [sentencesOf_single hne h, h1]
  show (([] : List Str) ++ packWords cfg w ++ []) ++ [] = [w]
  rw [packWords_single hne h hf]
  rfl

theorem buildChunks_single {cfg : Config} {w : Str} (hne : w ≠ [])
    (h : ∀ c ∈ w, pySpace c = false) (hf : fits cfg w = false) :
    buildChunks cfg [w] = [w] := by
  have hcand : strip (([] : Str) ++ (if ([] : Str).isEmpty then []
      else chars ("\n\n")) ++ w) = w := by
    rw [show (([] : Str) ++ (if ([] : Str).isEmpty then []
      else chars ("\n\n")) ++ w) = w from rfl]
    exact strip_of_noSpace h
  have h1 : packParasAux cfg [] [w] =
      (([] : List Str) ++ packSents cfg w ++ ([] : List Str), ([] : Str)) := by
    rw [show packParasAux cfg [] [w] =
        if ((strip (([] : Str) ++ (if ([] : Str).isEmpty then []
              else chars ("\n\n")) ++ w)).isEmpty ||
            fits cfg (strip (([] : Str) ++ (if ([] : Str).isEmpty then []
              else chars ("\n\n")) ++ w)))
        then packParasAux cfg (strip (([] : Str) ++
          (if ([] : Str).isEmpty then [] else chars ("\n\n")) ++ w)) []
        else if fits cfg w then
          ((if (strip ([] : Str)).isEmpty then [] else [strip ([] : Str)]) ++
            (packParasAux cfg w []).1, (packParasAux cfg w []).2)
        else
          ((if (strip ([] : Str)).isEmpty then [] else [strip ([] : Str)]) ++
            packSents cfg w ++ (packParasAux cfg [] []).1,
           (packParasAux cfg [] []).2) from rfl]
    rw [hcand, if_neg (by simp [hf, hne]), if_neg (by simp [hf])]
    rfl
  unfold buildChunks
  rw [h1]
  show (([] : List Str) ++ packSents cfg w ++ []) ++
    (if (strip ([] : Str)).isEmpty then [] else [strip ([] : Str)]) = [w]
  rw [packSents_single hne h hf]
  rfl

/-- C3: a document consisting of one single word (no whitespace at all)
whose estimated wire size exceeds the configured budget makes
`split_text_sentence_aware` raise the fatal error: the verification pass
reports chunk 1 with its byte size, the word having been propagated as
one whole chunk (never split and never truncated), and that byte size
strictly exceeds the budget. -/
theorem C3_unsplittable_word_fatal (cfg : Config) (w : Str) (hne : w ≠ [])
    (h : ∀ c ∈ w, pySpace c = false) (hf : fits cfg w = false) :
    split_text_sentence_aware cfg w = Except.error ⟨1, chunkBytes cfg w⟩ ∧
      buildChunks cfg (parasOf (normalizeText w)) = [w] ∧
      chunkLimit cfg < chunkBytes cfg w := by
  have hnorm : normalizeText w = w := normalizeText_of_noSpace h
  have hbig : chunkLimit cfg < chunkBytes cfg w := by
    rcases Nat.lt_or_ge (chunkLimit cfg) (chunkBytes cfg w) with h2 | h2
    · exact h2
    · exact absurd ((fits_iff cfg w).mpr h2) (by simp [hf])
  have hchunks : buildChunks cfg (parasOf (normalizeText w)) = [w] := by
    rw [hnorm, parasOf_single hne h, buildChunks_single hne h hf]
  refine ⟨?_, hchunks, hbig⟩
  have hdef : split_text_sentence_aware cfg w =
      if (normalizeText w).isEmpty then Except.ok []
      else
        match verifyChunks cfg 1 (buildChunks cfg (parasOf (normalizeText w)))
          with
        | Except.ok _ => Except.ok (buildChunks cfg (parasOf (normalizeText w)))
        | Except.error e => Except.error e := rfl
  rw [hdef, if_neg (by simp [hnorm, hne]), hchunks]
  rw [show verifyChunks cfg 1 [w] =
      if chunkLimit cfg < chunkBytes cfg w then
        Except.error ⟨1, chunkBytes cfg w⟩
      else verifyChunks cfg 2 [] from rfl]
  rw [if_pos hbig]

/-- Witness for C3 at a concrete input: with the auto-markup budget
lowered to 10 bytes, the single word `"Hello"` (expanded SSML 27 bytes)
is fatal. -/
theorem C3_unsplittable_word_fatal_witness :
    split_text_sentence_aware
        { useSSML := true, ssmlMode := SsmlMode.auto, breakMs := 220,
          paraBreakMs := 420, professorProsody := false,
          prosodyRate := chars ("88%"), prosodyPitch := chars ("-1st"),
          maxSSMLBytes := 10, maxTextBytes := 4700, sampleRateHz := 24000 }
        (chars ("Hello")) =
      Except.error ⟨1, chunkBytes
        { useSSML := true, ssmlMode := SsmlMode.auto, breakMs := 220,
          paraBreakMs := 420, professorProsody := false,
          prosodyRate := chars ("88%"), prosodyPitch := chars ("-1st"),
          maxSSMLBytes := 10, maxTextBytes := 4700, sampleRateHz := 24000 }
        (chars ("Hello"))⟩ := by
  exact (C3_unsplittable_word_fatal
    { useSSML := true, ssmlMode := SsmlMode.auto, breakMs := 220,
      paraBreakMs := 420, professorProsody := false,
      prosodyRate := chars ("88%"), prosodyPitch := chars ("-1st"),
      maxSSMLBytes := 10, maxTextBytes := 4700, sampleRateHz := 24000 }
    (chars ("Hello")) (by decide) (by decide) (by rfl)).1

/-! ### Determinism of the markup expander, and LINEAR16 assembly -/

/-- C5: the markup expander is a pure deterministic function of the
input text and the configuration constants: two calls on identical input
under an identical configuration produce byte-identical output (in this
embedding every global the Python function reads is a `Config` field,
and no mutable state exists to consult or modify). -/
theorem C5_expander_deterministic (cfg cfg2 : Config) (s t : Str)
    (hcfg : cfg = cfg2) (hst : s = t) :
    auto_text_to_ssml cfg s = auto_text_to_ssml cfg2 t ∧
      utf8_len (auto_text_to_ssml cfg s) = utf8_len (auto_text_to_ssml cfg2 t)
    := by
  subst hcfg
  subst hst
  exact ⟨rfl, rfl⟩

/-- Witness for C5 at a concrete input: two calls on `"One. Two"` with
the default configuration. -/
theorem C5_expander_deterministic_witness :
    auto_text_to_ssml defaultConfig (chars ("One. Two")) =
        auto_text_to_ssml defaultConfig (chars ("One. Two")) ∧
      utf8_len (auto_text_to_ssml defaultConfig (chars ("One. Two"))) =
        utf8_len (auto_text_to_ssml defaultConfig (chars ("One. Two"))) :=
  C5_expander_deterministic defaultConfig defaultConfig (chars ("One. Two"))
    (chars ("One. Two")) rfl rfl

theorem flatten_length_div_two (frags : List (List UInt8))
    (h : ∀ f ∈ frags, 2 ∣ f.length) :
    (frags.flatten).length / 2 = (frags.map fragFrames).sum := by
  induction frags with
  | nil => rfl
  | cons f fs ih =>
    rcases h f (by simp) with ⟨k, hk⟩
    have ih2 := ih (fun g hg => h g (by simp [hg]))
    rw [List.flatten_cons, List.length_append, hk]
    rw [show 2 * k + (fs.flatten).length = (fs.flatten).length + 2 * k from
      Nat.add_comm _ _]
    rw [Nat.add_mul_div_left _ _ (by simp : 0 < 2), ih2]
    have hfk : fragFrames f = k := by
      unfold fragFrames
      rw [hk]
      exact Nat.mul_div_cancel_left k (by simp)
    rw [show (List.map fragFrames (f :: fs)).sum =
      fragFrames f + (List.map fragFrames fs).sum from by simp]
    rw [hfk, Nat.add_comm]

/-- C9: for LINEAR16 assembly, the output is the in-order concatenation
of all fragment buffers wrapped in a container with exactly 1 channel,
2-byte sample width and the configured sample rate, and (for well-formed
16-bit fragments, whose byte length is even) the total PCM frame count
equals the sum of the fragment frame counts: no samples added or dropped
at boundaries. -/
theorem C9_linear16_assembly (rate : Nat) (frags : List (List UInt8))
    (h : ∀ f ∈ frags, 2 ∣ f.length) :
    (assembleLinear16 rate frags).nchannels = 1 ∧
      (assembleLinear16 rate frags).sampwidth = 2 ∧
      (assembleLinear16 rate frags).framerate = rate ∧
      (assembleLinear16 rate frags).data = frags.flatten ∧
      (assembleLinear16 rate frags).nframes = (frags.map fragFrames).sum := by
  refine ⟨rfl, rfl, rfl, rfl, ?_⟩
  unfold assembleLinear16 write_wav WavFile.nframes
  simp only
  rw [show (1 * 2 : Nat) = 2 from rfl]
  exact flatten_length_div_two frags h

/-- Witness for C9 at a concrete input: two fragments of 2 and 4 bytes
at 24000 Hz assemble to 1 + 2 = 3 frames. -/
theorem C9_linear16_assembly_witness :
    (assembleLinear16 24000 [[0, 1], [2, 3, 4, 5]]).nchannels = 1 ∧
      (assembleLinear16 24000 [[0, 1], [2, 3, 4, 5]]).sampwidth = 2 ∧
      (assembleLinear16 24000 [[0, 1], [2, 3, 4, 5]]).framerate = 24000 ∧
      (assembleLinear16 24000 [[0, 1], [2, 3, 4, 5]]).data =
        ([[0, 1], [2, 3, 4, 5]] : List (List UInt8)).flatten ∧
      (assembleLinear16 24000 [[0, 1], [2, 3, 4, 5]]).nframes =
        (([[0, 1], [2, 3, 4, 5]] : List (List UInt8)).map fragFrames).sum :=
  C9_linear16_assembly 24000 [[0, 1], [2, 3, 4, 5]] (by decide)

/-! ### Characters of the inserted pause directives -/

theorem digitChar_isDigit {m : Nat} (h : m < 10) :
    (Nat.digitChar m).isDigit = true := by
  interval_cases m <;> decide

theorem toDigitsCore_digits :
    ∀ (fuel n : Nat) (ds : List Char), (∀ c ∈ ds, c.isDigit = true) →
      ∀ c ∈ Nat.toDigitsCore 10 fuel n ds, c.isDigit = true := by
  intro fuel
  induction fuel with
  | zero => intro n ds hds c hc; exact hds c hc
  | succ fuel ih =>
    intro n ds hds c hc
    rw [show Nat.toDigitsCore 10 (fuel + 1) n ds =
        if n / 10 = 0 then Nat.digitChar (n % 10) :: ds
        else Nat.toDigitsCore 10 fuel (n / 10) (Nat.digitChar (n % 10) :: ds)
      from rfl] at hc
    have hd : (Nat.digitChar (n % 10)).isDigit = true :=
      digitChar_isDigit (Nat.mod_lt n (by norm_num))
    by_cases h0 : n / 10 = 0
    · rw [if_pos h0] at hc
      rcases List.mem_cons.mp hc with h | h
      · subst h; exact hd
      · exact hds c h
    · rw [if_neg h0] at hc
      refine ih (n / 10) _ ?_ c hc
      intro x hx
      rcases List.mem_cons.mp hx with h | h
      · subst h; exact hd
      · exact hds x h

theorem natChars_digits (n : Nat) : ∀ c ∈ natChars n, c.isDigit = true := by
  intro c hc
  exact toDigitsCore_digits (n + 1) n [] (by simp) c hc

theorem mem_brkStr {n : Nat} {c : Char} (hc : c ∈ brkStr n) :
    c ∈ chars (" <break time='") ∨ c.isDigit = true ∨ c ∈ chars ("ms'/> ") := by
  unfold brkStr at hc
  rcases List.mem_append.mp hc with h | h
  · rcases List.mem_append.mp h with h2 | h2
    · exact Or.inl h2
    · exact Or.inr (Or.inl (natChars_digits n c h2))
  · exact Or.inr (Or.inr h)

theorem isDigit_facts {c : Char} (h : c.isDigit = true) :
    isComma c = false ∧ isColonSemi c = false ∧ isSentEnd c = false ∧
      c ≠ '—' ∧ c ≠ '-' ∧ c ≠ '&' ∧ c ≠ '<' ∧ c ≠ '>' := by
  unfold Char.isDigit at h
  simp only [Bool.and_eq_true, decide_eq_true_eq] at h
  rcases h with ⟨h1, h2⟩
  have hne : ∀ d : Char, d.val < 48 ∨ 57 < d.val → c ≠ d := by
    intro d hd he
    subst he
    simp only [ge_iff_le] at h1
    rcases hd with hd | hd
    · rw [UInt32.le_def, BitVec.le_def] at h1
      rw [UInt32.lt_def, BitVec.lt_def] at hd
      omega
    · rw [UInt32.le_def, BitVec.le_def] at h2
      rw [UInt32.lt_def, BitVec.lt_def] at hd
      omega
  refine ⟨?_, ?_, ?_, ?_, ?_, ?_, ?_, ?_⟩
  · simp [isComma, hne ',' (by decide)]
  · simp [isColonSemi, hne ':' (by decide), hne ';' (by decide)]
  · have e1 : c ≠ '.' := hne '.' (by decide)
    have e2 : c ≠ '!' := hne '!' (by decide)
    have e3 : c ≠ '?' := hne '?' (by decide)
    simp [isSentEnd, e1, e2, e3]
  · exact hne '—' (by decide)
  · exact hne '-' (by decide)
  · exact hne '&' (by decide)
  · exact hne '<' (by decide)
  · exact hne '>' (by decide)

theorem brkStr_concrete_head :
    ∀ c ∈ chars (" <break time='"),
      isComma c = false ∧ isColonSemi c = false ∧ isSentEnd c = false ∧
        c ≠ '—' ∧ c ≠ '-' := by decide

theorem brkStr_concrete_tail :
    ∀ c ∈ chars ("ms'/> "),
      isComma c = false ∧ isColonSemi c = false ∧ isSentEnd c = false ∧
        c ≠ '—' ∧ c ≠ '-' := by decide

theorem brkStr_chars {n : Nat} {c : Char} (hc : c ∈ brkStr n) :
    isComma c = false ∧ isColonSemi c = false ∧ isSentEnd c = false ∧
      c ≠ '—' ∧ c ≠ '-' := by
  rcases mem_brkStr hc with h | h | h
  · exact brkStr_concrete_head c h
  · exact ⟨(isDigit_facts h).1, (isDigit_facts h).2.1, (isDigit_facts h).2.2.1,
      (isDigit_facts h).2.2.2.1, (isDigit_facts h).2.2.2.2.1⟩
  · exact brkStr_concrete_tail c h

theorem brkStr_count_amp (n : Nat) : (brkStr n).count '&' = 0 := by
  rw [List.count_eq_zero]
  intro hc
  rcases mem_brkStr hc with h | h | h
  · revert h; decide
  · exact absurd rfl (isDigit_facts h).2.2.2.2.2.1
  · revert h; decide

theorem natChars_count_eq_zero {n : Nat} {d : Char} (hd : d.isDigit = false) :
    (natChars n).count d = 0 := by
  rw [List.count_eq_zero]
  intro hc
  rw [natChars_digits n d hc] at hd
  exact Bool.noConfusion hd

theorem brkStr_count_lt (n : Nat) : (brkStr n).count '<' = 1 := by
  unfold brkStr
  rw [List.count_append, List.count_append,
    natChars_count_eq_zero (by decide)]
  decide

theorem brkStr_count_gt (n : Nat) : (brkStr n).count '>' = 1 := by
  unfold brkStr
  rw [List.count_append, List.count_append,
    natChars_count_eq_zero (by decide)]
  decide

/-! ### No-trigger identity of the pause substitutions -/

theorem subBreak_no_trigger {trig : Char → Bool} {brk : Str} :
    ∀ {l : Str}, (∀ c ∈ l, trig c = false) →
      subBreakAux trig brk false l = l := by
  intro l
  induction l with
  | nil => intro _; rfl
  | cons c r ih =>
    intro h
    have hc : trig c = false := h c (by simp)
    rw [show subBreakAux trig brk false (c :: r) =
        if trig c && headSpace r then c :: (brk ++ subBreakAux trig brk true r)
        else c :: subBreakAux trig brk false r from rfl]
    rw [if_neg (by simp [hc])]
    rw [ih (fun x hx => h x (by simp [hx]))]

theorem subDash_no_trigger {brk : Str} :
    ∀ {l : Str}, (∀ c ∈ l, c ≠ '—' ∧ c ≠ '-') →
      subDashAux brk DashState.norm l = l := by
  intro l
  induction l with
  | nil => intro _; rfl
  | cons c r ih =>
    intro h
    rw [show subDashAux brk DashState.norm (c :: r) =
        if c = '—' && headSpace r then
          c :: (brk ++ subDashAux brk DashState.skip r)
        else if c = '-' then subDashAux brk DashState.dash r
        else c :: subDashAux brk DashState.norm r from rfl]
    rw [if_neg (by simp [(h c (by simp)).1]), if_neg (by simp [(h c (by simp)).2])]
    rw [ih (fun x hx => h x (by simp [hx]))]

/-! ### Character counts through escaping and pause insertion -/

theorem escChar_default {c : Char} (h1 : c ≠ '&') (h2 : c ≠ '<')
    (h3 : c ≠ '>') (h4 : c ≠ '\"') (h5 : c ≠ '\'') : escChar c = [c] := by
  unfold escChar
  split <;> first | rfl | simp_all

theorem escChar_count_lt (c : Char) : (escChar c).count '<' = 0 := by
  by_cases h1 : c = '&'
  · subst h1; decide
  by_cases h2 : c = '<'
  · subst h2; decide
  by_cases h3 : c = '>'
  · subst h3; decide
  by_cases h4 : c = '\"'
  · subst h4; decide
  by_cases h5 : c = '\''
  · subst h5; decide
  rw [escChar_default h1 h2 h3 h4 h5]
  simp [List.count_singleton, beq_iff_eq, h2]

theorem escChar_count_gt (c : Char) : (escChar c).count '>' = 0 := by
  by_cases h1 : c = '&'
  · subst h1; decide
  by_cases h2 : c = '<'
  · subst h2; decide
  by_cases h3 : c = '>'
  · subst h3; decide
  by_cases h4 : c = '\"'
  · subst h4; decide
  by_cases h5 : c = '\''
  · subst h5; decide
  rw [escChar_default h1 h2 h3 h4 h5]
  simp [List.count_singleton, beq_iff_eq, h3]

theorem escChar_count_amp (c : Char) :
    (escChar c).count '&' =
      (if c = '&' then 1 else 0) + (if c = '<' then 1 else 0) +
        (if c = '>' then 1 else 0) + (if c = '\"' then 1 else 0) +
        (if c = '\'' then 1 else 0) := by
  by_cases h1 : c = '&'
  · subst h1; decide
  by_cases h2 : c = '<'
  · subst h2; decide
  by_cases h3 : c = '>'
  · subst h3; decide
  by_cases h4 : c = '\"'
  · subst h4; decide
  by_cases h5 : c = '\''
  · subst h5; decide
  rw [escChar_default h1 h2 h3 h4 h5]
  simp [List.count_singleton, beq_iff_eq, h1, h2, h3, h4, h5]

theorem htmlEscape_cons (c : Char) (r : Str) :
    htmlEscape (c :: r) = escChar c ++ htmlEscape r := rfl

theorem htmlEscape_count_lt (p : Str) : (htmlEscape p).count '<' = 0 := by
  induction p with
  | nil => rfl
  | cons c r ih =>
    rw [htmlEscape_cons, List.count_append, ih, escChar_count_lt]

theorem htmlEscape_count_gt (p : Str) : (htmlEscape p).count '>' = 0 := by
  induction p with
  | nil => rfl
  | cons c r ih =>
    rw [htmlEscape_cons, List.count_append, ih, escChar_count_gt]

theorem htmlEscape_count_amp (p : Str) :
    (htmlEscape p).count '&' =
      p.count '&' + p.count '<' + p.count '>' + p.count '\"' +
        p.count '\'' := by
  induction p with
  | nil => rfl
  | cons c r ih =>
    rw [htmlEscape_cons, List.count_append, ih, escChar_count_amp]
    simp only [List.count_cons, beq_iff_eq]
    omega

theorem subBreak_step {trig : Char → Bool} {brk : Str} (sk : Bool) (c : Char)
    (r : Str) :
    subBreakAux trig brk sk (c :: r) =
      if sk && pySpace c then subBreakAux trig brk true r
      else if trig c && headSpace r then
        c :: (brk ++ subBreakAux trig brk true r)
      else c :: subBreakAux trig brk false r := rfl

theorem subBreak_count_preserve {trig : Char → Bool} {brk : Str} {d : Char}
    (hd : pySpace d = false) (hbrk : brk.count d = 0) :
    ∀ (l : Str) (sk : Bool), (subBreakAux trig brk sk l).count d = l.count d
    := by
  intro l
  induction l with
  | nil => intro sk; rfl
  | cons c r ih =>
    intro sk
    rw [subBreak_step]
    by_cases h1 : (sk && pySpace c) = true
    · rw [if_pos h1, ih true]
      have hcd : ¬(c = d) := by
        intro he
        subst he
        rw [hd] at h1
        simp at h1
      simp [List.count_cons, beq_iff_eq, hcd]
    · rw [if_neg h1]
      by_cases h2 : (trig c && headSpace r) = true
      · rw [if_pos h2]
        simp [List.count_cons, List.count_append, beq_iff_eq, hbrk, ih true]
      · rw [if_neg h2]
        simp [List.count_cons, beq_iff_eq, ih false]

theorem subBreak_count_pair {trig : Char → Bool} {brk : Str} {d1 d2 : Char}
    (hd1 : pySpace d1 = false) (hd2 : pySpace d2 = false) :
    ∀ (l : Str) (sk : Bool), ∃ k,
      (subBreakAux trig brk sk l).count d1 = l.count d1 + k * brk.count d1 ∧
      (subBreakAux trig brk sk l).count d2 = l.count d2 + k * brk.count d2
    := by
  intro l
  induction l with
  | nil => intro sk; exact ⟨0, by simp [subBreakAux], by simp [subBreakAux]⟩
  | cons c r ih =>
    intro sk
    rw [subBreak_step]
    by_cases h1 : (sk && pySpace c) = true
    · rcases ih true with ⟨k, hk1, hk2⟩
      have hcs : pySpace c = true := (Bool.and_eq_true_iff.mp h1).2
      have hcd1 : ¬(c = d1) := by
        intro he; subst he; rw [hd1] at hcs; exact Bool.noConfusion hcs
      have hcd2 : ¬(c = d2) := by
        intro he; subst he; rw [hd2] at hcs; exact Bool.noConfusion hcs
      rw [if_pos h1]
      exact ⟨k, by (simp [List.count_cons, beq_iff_eq, hcd1, hk1]; try ring),
        by (simp [List.count_cons, beq_iff_eq, hcd2, hk2]; try ring)⟩
    · rw [if_neg h1]
      by_cases h2 : (trig c && headSpace r) = true
      · rcases ih true with ⟨k, hk1, hk2⟩
        rw [if_pos h2]
        refine ⟨k + 1, ?_, ?_⟩
        · simp only [List.count_cons, List.count_append, beq_iff_eq, hk1,
            Nat.succ_mul]
          ring
        · simp only [List.count_cons, List.count_append, beq_iff_eq, hk2,
            Nat.succ_mul]
          ring
      · rcases ih false with ⟨k, hk1, hk2⟩
        rw [if_neg h2]
        refine ⟨k, ?_, ?_⟩
        · simp [List.count_cons, beq_iff_eq, hk1]
          ring
        · simp [List.count_cons, beq_iff_eq, hk2]
          ring

theorem subDash_step_skip {brk : Str} (c : Char) (r : Str) :
    subDashAux brk DashState.skip (c :: r) =
      if pySpace c then subDashAux brk DashState.skip r
      else if c = '—' && headSpace r then
        c :: (brk ++ subDashAux brk DashState.skip r)
      else if c = '-' then subDashAux brk DashState.dash r
      else c :: subDashAux brk DashState.norm r := rfl

theorem subDash_step_norm {brk : Str} (c : Char) (r : Str) :
    subDashAux brk DashState.norm (c :: r) =
      if c = '—' && headSpace r then
        c :: (brk ++ subDashAux brk DashState.skip r)
      else if c = '-' then subDashAux brk DashState.dash r
      else c :: subDashAux brk DashState.norm r := rfl

theorem subDash_step_dash {brk : Str} (c : Char) (r : Str) :
    subDashAux brk DashState.dash (c :: r) =
      if c = '-' then
        (if headSpace r then '-' :: '-' :: (brk ++ subDashAux brk
          DashState.skip r)
         else '-' :: subDashAux brk DashState.dash r)
      else if c = '—' && headSpace r then
        '-' :: c :: (brk ++ subDashAux brk DashState.skip r)
      else '-' :: c :: subDashAux brk DashState.norm r := rfl

theorem subDash_count_preserve {brk : Str} {d : Char}
    (hd : pySpace d = false) (hbrk : brk.count d = 0) :
    ∀ (l : Str) (st : DashState),
      (subDashAux brk st l).count d =
        (if st = DashState.dash then (['-'] : Str).count d else 0) +
          l.count d := by
  intro l
  induction l with
  | nil =>
    intro st
    cases st <;> simp [subDashAux]
  | cons c r ih =>
    intro st
    cases st with
    | skip =>
      rw [subDash_step_skip]
      by_cases h1 : pySpace c = true
      · have hcd : ¬(c = d) := by
          intro he; subst he; rw [hd] at h1; exact Bool.noConfusion h1
        rw [if_pos h1, ih DashState.skip]
        simp [List.count_cons, beq_iff_eq, hcd]
      · rw [if_neg h1]
        by_cases h2 : (c = '—' && headSpace r) = true
        · rw [if_pos h2]
          simp [List.count_cons, List.count_append, beq_iff_eq, hbrk,
            ih DashState.skip]
        · rw [if_neg h2]
          by_cases h3 : c = '-'
          · rw [if_pos h3, ih DashState.dash]
            subst h3
            simp [List.count_cons, List.count_singleton, beq_iff_eq]
            omega
          · rw [if_neg h3]
            simp [List.count_cons, beq_iff_eq, ih DashState.norm]
    | norm =>
      rw [subDash_step_norm]
      by_cases h2 : (c = '—' && headSpace r) = true
      · rw [if_pos h2]
        simp [List.count_cons, List.count_append, beq_iff_eq, hbrk,
          ih DashState.skip]
      · rw [if_neg h2]
        by_cases h3 : c = '-'
        · rw [if_pos h3, ih DashState.dash]
          subst h3
          simp [List.count_cons, List.count_singleton, beq_iff_eq]
          omega
        · rw [if_neg h3]
          simp [List.count_cons, beq_iff_eq, ih DashState.norm]
    | dash =>
      rw [subDash_step_dash]
      by_cases h3 : c = '-'
      · subst h3
        by_cases hh : headSpace r = true
        · rw [if_pos rfl, if_pos hh]
          simp [List.count_cons, List.count_append, List.count_singleton,
            beq_iff_eq, hbrk, ih DashState.skip]
          omega
        · rw [if_pos rfl, if_neg hh]
          simp [List.count_cons, List.count_singleton, beq_iff_eq,
            ih DashState.dash]
          omega
      · rw [if_neg h3]
        by_cases h2 : (c = '—' && headSpace r) = true
        · rw [if_pos h2]
          simp [List.count_cons, List.count_append, List.count_singleton,
            beq_iff_eq, hbrk, ih DashState.skip]
          omega
        · rw [if_neg h2]
          simp [List.count_cons, List.count_singleton, beq_iff_eq,
            ih DashState.norm]
          omega

theorem subDash_count_pair {brk : Str} {d1 d2 : Char}
    (hd1 : pySpace d1 = false) (hd2 : pySpace d2 = false)
    (hm1 : d1 ≠ '-') (hm2 : d2 ≠ '-') :
    ∀ (l : Str) (st : DashState), ∃ k,
      (subDashAux brk st l).count d1 = l.count d1 + k * brk.count d1 ∧
      (subDashAux brk st l).count d2 = l.count d2 + k * brk.count d2 := by
  have hnd1 : ¬(('-' : Char) = d1) := fun h => hm1 h.symm
  have hnd2 : ¬(('-' : Char) = d2) := fun h => hm2 h.symm
  intro l
  induction l with
  | nil =>
    intro st
    refine ⟨0, ?_, ?_⟩ <;> cases st <;>
      simp [subDashAux, List.count_singleton, beq_iff_eq, hnd1, hnd2]
  | cons c r ih =>
    intro st
    cases st with
    | skip =>
      rw [subDash_step_skip]
      by_cases h1 : pySpace c = true
      · have hcd1 : ¬(c = d1) := by
          intro he; subst he; rw [hd1] at h1; exact Bool.noConfusion h1
        have hcd2 : ¬(c = d2) := by
          intro he; subst he; rw [hd2] at h1; exact Bool.noConfusion h1
        rcases ih DashState.skip with ⟨k, hk1, hk2⟩
        rw [if_pos h1]
        exact ⟨k, by (simp [List.count_cons, beq_iff_eq, hcd1, hk1]; try ring),
          by (simp [List.count_cons, beq_iff_eq, hcd2, hk2]; try ring)⟩
      · rw [if_neg h1]
        by_cases h2 : (c = '—' && headSpace r) = true
        · rcases ih DashState.skip with ⟨k, hk1, hk2⟩
          rw [if_pos h2]
          refine ⟨k + 1, ?_, ?_⟩
          · simp only [List.count_cons, List.count_append, beq_iff_eq, hk1,
              Nat.succ_mul]
            ring
          · simp only [List.count_cons, List.count_append, beq_iff_eq, hk2,
              Nat.succ_mul]
            ring
        · rw [if_neg h2]
          by_cases h3 : c = '-'
          · rcases ih DashState.dash with ⟨k, hk1, hk2⟩
            rw [if_pos h3]
            subst h3
            exact ⟨k, by (simp [List.count_cons, beq_iff_eq, hnd1, hk1]; try ring),
              by (simp [List.count_cons, beq_iff_eq, hnd2, hk2]; try ring)⟩
          · rcases ih DashState.norm with ⟨k, hk1, hk2⟩
            rw [if_neg h3]
            exact ⟨k, by (simp [List.count_cons, beq_iff_eq, hk1]; try ring),
              by (simp [List.count_cons, beq_iff_eq, hk2]; try ring)⟩
    | norm =>
      rw [subDash_step_norm]
      by_cases h2 : (c = '—' && headSpace r) = true
      · rcases ih DashState.skip with ⟨k, hk1, hk2⟩
        rw [if_pos h2]
        refine ⟨k + 1, ?_, ?_⟩
        · simp only [List.count_cons, List.count_append, beq_iff_eq, hk1,
            Nat.succ_mul]
          ring
        · simp only [List.count_cons, List.count_append, beq_iff_eq, hk2,
            Nat.succ_mul]
          ring
      · rw [if_neg h2]
        by_cases h3 : c = '-'
        · rcases ih DashState.dash with ⟨k, hk1, hk2⟩
          rw [if_pos h3]
          subst h3
          exact ⟨k, by (simp [List.count_cons, beq_iff_eq, hnd1, hk1]; try ring),
            by (simp [List.count_cons, beq_iff_eq, hnd2, hk2]; try ring)⟩
        · rcases ih DashState.norm with ⟨k, hk1, hk2⟩
          rw [if_neg h3]
          exact ⟨k, by (simp [List.count_cons, beq_iff_eq, hk1]; try ring),
            by (simp [List.count_cons, beq_iff_eq, hk2]; try ring)⟩
    | dash =>
      rw [subDash_step_dash]
      by_cases h3 : c = '-'
      · subst h3
        by_cases hh : headSpace r = true
        · rcases ih DashState.skip with ⟨k, hk1, hk2⟩
          rw [if_pos rfl, if_pos hh]
          refine ⟨k + 1, ?_, ?_⟩
          · simp only [List.count_cons, List.count_append, beq_iff_eq, hk1,
              Nat.succ_mul]
            simp [hnd1]
            ring
          · simp only [List.count_cons, List.count_append, beq_iff_eq, hk2,
              Nat.succ_mul]
            simp [hnd2]
            ring
        · rcases ih DashState.dash with ⟨k, hk1, hk2⟩
          rw [if_pos rfl, if_neg hh]
          exact ⟨k, by (simp [List.count_cons, beq_iff_eq, hnd1, hk1]; try ring),
            by (simp [List.count_cons, beq_iff_eq, hnd2, hk2]; try ring)⟩
      · rw [if_neg h3]
        by_cases h2 : (c = '—' && headSpace r) = true
        · rcases ih DashState.skip with ⟨k, hk1, hk2⟩
          rw [if_pos h2]
          refine ⟨k + 1, ?_, ?_⟩
          · simp only [List.count_cons, List.count_append, beq_iff_eq, hk1,
              Nat.succ_mul]
            simp [hnd1]
            ring
          · simp only [List.count_cons, List.count_append, beq_iff_eq, hk2,
              Nat.succ_mul]
            simp [hnd2]
            ring
        · rcases ih DashState.norm with ⟨k, hk1, hk2⟩
          rw [if_neg h2]
          exact ⟨k, by (simp [List.count_cons, beq_iff_eq, hnd1, hk1]; try ring),
            by (simp [List.count_cons, beq_iff_eq, hnd2, hk2]; try ring)⟩

/-- C6: escaping of the structurally significant characters is applied
before any pause-directive insertion.  Consequences, for every
configuration and every paragraph text: after `html.escape` no raw `<`
or `>` remains; in the paragraph body after pause insertion, every `&`,
`<`, `>` (and quote) of the original text is represented by exactly one
escape entity (counted by its leading `&`, which pause insertion
preserves); the `<` and `>` characters present in the body all belong to
inserted `<break/>` directives (their counts are equal, one matched pair
per directive, while the escaped text contributes none).  A concrete
instance displays the exact output. -/
theorem C6_escape_before_insertion :
    (∀ (cfg : Config) (p : Str),
      (htmlEscape p).count '<' = 0 ∧
      (htmlEscape p).count '>' = 0 ∧
      (applyBreaks cfg (htmlEscape p)).count '&' =
        p.count '&' + p.count '<' + p.count '>' + p.count '\"' +
          p.count '\'' ∧
      (applyBreaks cfg (htmlEscape p)).count '<' =
        (applyBreaks cfg (htmlEscape p)).count '>') ∧
    processPara defaultConfig (chars ("a & b, c<d. e")) =
      chars ("<p>a &amp; <break time='220ms'/> b, <break time='120ms'/> " ++
        "c&lt;d. <break time='220ms'/> e</p>") := by
  constructor
  · intro cfg p
    have hampS : pySpace '&' = false := by decide
    refine ⟨htmlEscape_count_lt p, htmlEscape_count_gt p, ?_, ?_⟩
    · unfold applyBreaks
      rw [subDash_count_preserve hampS (brkStr_count_amp 180)]
      rw [subBreak_count_preserve hampS (brkStr_count_amp 220)]
      rw [subBreak_count_preserve hampS (brkStr_count_amp 120)]
      rw [subBreak_count_preserve hampS (brkStr_count_amp cfg.breakMs)]
      rw [htmlEscape_count_amp]
      simp
    · have hlt : pySpace '<' = false := by decide
      have hgt : pySpace '>' = false := by decide
      have step : ∀ (y : Str) (n : Nat) (trig : Char → Bool),
          y.count '<' = y.count '>' →
          (subBreakAux trig (brkStr n) false y).count '<' =
            (subBreakAux trig (brkStr n) false y).count '>' := by
        intro y n trig h
        rcases subBreak_count_pair hlt hgt y false with ⟨k, h1, h2⟩
        rw [h1, h2, brkStr_count_lt, brkStr_count_gt, h]
      have dstep : ∀ (y : Str) (n : Nat),
          y.count '<' = y.count '>' →
          (subDashAux (brkStr n) DashState.norm y).count '<' =
            (subDashAux (brkStr n) DashState.norm y).count '>' := by
        intro y n h
        rcases subDash_count_pair hlt hgt (by decide) (by decide) y
          DashState.norm with ⟨k, h1, h2⟩
        rw [h1, h2, brkStr_count_lt, brkStr_count_gt, h]
      unfold applyBreaks
      refine dstep _ 180 (step _ 220 _ (step _ 120 _ (step _ cfg.breakMs _ ?_)))
      rw [htmlEscape_count_lt, htmlEscape_count_gt]
  · decide

/-! ### Concrete pause-insertion equations -/

theorem sent_piece_chars (n : Nat) :
    ∀ c ∈ chars ("a.") ++ brkStr n ++ chars ("b"),
      isComma c = false ∧ isColonSemi c = false ∧ c ≠ '—' ∧ c ≠ '-' := by
  intro c hc
  rcases List.mem_append.mp hc with h | h
  · rcases List.mem_append.mp h with h2 | h2
    · exact (show ∀ x ∈ chars ("a."), isComma x = false ∧
        isColonSemi x = false ∧ x ≠ '—' ∧ x ≠ '-' by decide) c h2
    · exact ⟨(brkStr_chars h2).1, (brkStr_chars h2).2.1,
        (brkStr_chars h2).2.2.2.1, (brkStr_chars h2).2.2.2.2⟩
  · exact (show ∀ x ∈ chars ("b"), isComma x = false ∧
      isColonSemi x = false ∧ x ≠ '—' ∧ x ≠ '-' by decide) c h

theorem applyBreaks_sentence (cfg : Config) :
    applyBreaks cfg (htmlEscape (chars ("a. b"))) =
      chars ("a.") ++ brkStr cfg.breakMs ++ chars ("b") := by
  unfold applyBreaks
  rw [show subBreakAux isSentEnd (brkStr cfg.breakMs) false
      (htmlEscape (chars ("a. b"))) =
      chars ("a.") ++ brkStr cfg.breakMs ++ chars ("b") from rfl]
  rw [subBreak_no_trigger (fun c hc => (sent_piece_chars cfg.breakMs c hc).1)]
  rw [subBreak_no_trigger (fun c hc => (sent_piece_chars cfg.breakMs c hc).2.1)]
  rw [subDash_no_trigger (fun c hc => ⟨(sent_piece_chars cfg.breakMs c hc).2.2.1,
    (sent_piece_chars cfg.breakMs c hc).2.2.2⟩)]

theorem applyBreaks_comma (cfg : Config) :
    applyBreaks cfg (htmlEscape (chars ("a, b"))) =
      chars ("a, <break time='120ms'/> b") := by
  unfold applyBreaks
  rw [show htmlEscape (chars ("a, b")) = chars ("a, b") from rfl]
  rw [subBreak_no_trigger (show ∀ c ∈ chars ("a, b"), isSentEnd c = false
    by decide)]
  decide

theorem applyBreaks_colon (cfg : Config) :
    applyBreaks cfg (htmlEscape (chars ("a; b"))) =
      chars ("a; <break time='220ms'/> b") := by
  unfold applyBreaks
  rw [show htmlEscape (chars ("a; b")) = chars ("a; b") from rfl]
  rw [subBreak_no_trigger (show ∀ c ∈ chars ("a; b"), isSentEnd c = false
    by decide)]
  decide

theorem applyBreaks_hyphens (cfg : Config) :
    applyBreaks cfg (htmlEscape (chars ("a-- b"))) =
      chars ("a-- <break time='180ms'/> b") := by
  unfold applyBreaks
  rw [show htmlEscape (chars ("a-- b")) = chars ("a-- b") from rfl]
  rw [subBreak_no_trigger (show ∀ c ∈ chars ("a-- b"), isSentEnd c = false
    by decide)]
  decide

theorem applyBreaks_emdash (cfg : Config) :
    applyBreaks cfg (htmlEscape (chars ("a— b"))) =
      chars ("a— <break time='180ms'/> b") := by
  unfold applyBreaks
  rw [show htmlEscape (chars ("a— b")) = chars ("a— b") from rfl]
  rw [subBreak_no_trigger (show ∀ c ∈ chars ("a— b"), isSentEnd c = false
    by decide)]
  decide

theorem processPara_letter_a (cfg : Config) :
    processPara cfg (chars ("a")) = wrapPara cfg (chars ("a")) := by
  unfold processPara applyBreaks
  rw [show htmlEscape (chars ("a")) = chars ("a") from rfl]
  rw [subBreak_no_trigger (show ∀ c ∈ chars ("a"), isSentEnd c = false
    by decide)]
  rw [subBreak_no_trigger (show ∀ c ∈ chars ("a"), isComma c = false
    by decide)]
  rw [subBreak_no_trigger (show ∀ c ∈ chars ("a"), isColonSemi c = false
    by decide)]
  rw [subDash_no_trigger (show ∀ c ∈ chars ("a"), c ≠ '—' ∧ c ≠ '-'
    by decide)]

theorem processPara_letter_b (cfg : Config) :
    processPara cfg (chars ("b")) = wrapPara cfg (chars ("b")) := by
  unfold processPara applyBreaks
  rw [show htmlEscape (chars ("b")) = chars ("b") from rfl]
  rw [subBreak_no_trigger (show ∀ c ∈ chars ("b"), isSentEnd c = false
    by decide)]
  rw [subBreak_no_trigger (show ∀ c ∈ chars ("b"), isComma c = false
    by decide)]
  rw [subBreak_no_trigger (show ∀ c ∈ chars ("b"), isColonSemi c = false
    by decide)]
  rw [subDash_no_trigger (show ∀ c ∈ chars ("b"), c ≠ '—' ∧ c ≠ '-'
    by decide)]

theorem auto_two_paragraphs (cfg : Config) :
    auto_text_to_ssml cfg (chars ("a\n\nb")) =
      chars ("<speak>") ++ wrapPara cfg (chars ("a")) ++
        chars ("<break time='") ++ natChars cfg.paraBreakMs ++
        chars ("ms'/>") ++ wrapPara cfg (chars ("b")) ++
        chars ("</speak>") := by
  unfold auto_text_to_ssml
  show chars ("<speak>") ++
      List.intercalate (paraJoiner cfg)
        ((parasOf (normalizeText (chars ("a\n\nb")))).map
          (processPara cfg)) ++ chars ("</speak>") =
    chars ("<speak>") ++ wrapPara cfg (chars ("a")) ++
      chars ("<break time='") ++ natChars cfg.paraBreakMs ++
      chars ("ms'/>") ++ wrapPara cfg (chars ("b")) ++ chars ("</speak>")
  rw [show parasOf (normalizeText (chars ("a\n\nb"))) =
    [chars ("a"), chars ("b")] from rfl]
  rw [show List.map (processPara cfg) [chars ("a"), chars ("b")] =
    [processPara cfg (chars ("a")), processPara cfg (chars ("b"))] from rfl]
  rw [processPara_letter_a, processPara_letter_b]
  rw [show List.intercalate (paraJoiner cfg)
      [wrapPara cfg (chars ("a")), wrapPara cfg (chars ("b"))] =
      wrapPara cfg (chars ("a")) ++ paraJoiner cfg ++
        wrapPara cfg (chars ("b")) by
    simp [List.intercalate, List.intersperse]]
  unfold paraJoiner
  simp [List.append_assoc]

/-- C10: only the sentence-terminal pause (`BREAK_MS`) and the
inter-paragraph pause (`PARA_BREAK_MS`) are configurable.  For every
configuration, a comma emits exactly `<break time='120ms'/>`, a
colon/semicolon `<break time='220ms'/>`, and an em-dash or double hyphen
`<break time='180ms'/>` — fixed constants unaffected by any setting —
while the sentence-terminal pause renders `BREAK_MS` and the paragraph
joiner renders `PARA_BREAK_MS`. -/
theorem C10_fixed_inline_pauses (cfg : Config) :
    applyBreaks cfg (htmlEscape (chars ("a, b"))) =
        chars ("a, <break time='120ms'/> b") ∧
      applyBreaks cfg (htmlEscape (chars ("a; b"))) =
        chars ("a; <break time='220ms'/> b") ∧
      applyBreaks cfg (htmlEscape (chars ("a-- b"))) =
        chars ("a-- <break time='180ms'/> b") ∧
      applyBreaks cfg (htmlEscape (chars ("a— b"))) =
        chars ("a— <break time='180ms'/> b") ∧
      applyBreaks cfg (htmlEscape (chars ("a. b"))) =
        chars ("a.") ++ brkStr cfg.breakMs ++ chars ("b") ∧
      auto_text_to_ssml cfg (chars ("a\n\nb")) =
        chars ("<speak>") ++ wrapPara cfg (chars ("a")) ++
          chars ("<break time='") ++ natChars cfg.paraBreakMs ++
          chars ("ms'/>") ++ wrapPara cfg (chars ("b")) ++
          chars ("</speak>") :=
  ⟨applyBreaks_comma cfg, applyBreaks_colon cfg, applyBreaks_hyphens cfg,
    applyBreaks_emdash cfg, applyBreaks_sentence cfg,
    auto_two_paragraphs cfg⟩

/-- Counterexample to C7 as stated: the sentence-terminal pause is the
configurable `BREAK_MS`; at the configuration `BREAK_MS=50` (all other
settings default), the sentence-terminal pause emitted (50ms) is shorter
than the fixed comma pause (120ms), so it is not the longest inline
pause for every configuration.  (Also at the default `BREAK_MS=220` it
merely ties the colon/semicolon pause of 220ms instead of exceeding
it.) -/
theorem C7_pause_order_counterexample :
    applyBreaks
        { useSSML := true, ssmlMode := SsmlMode.auto, breakMs := 50,
          paraBreakMs := 420, professorProsody := false,
          prosodyRate := chars ("88%"), prosodyPitch := chars ("-1st"),
          maxSSMLBytes := 4700, maxTextBytes := 4700, sampleRateHz := 24000 }
        (htmlEscape (chars ("a. b"))) =
      chars ("a. <break time='50ms'/> b") ∧
    applyBreaks
        { useSSML := true, ssmlMode := SsmlMode.auto, breakMs := 50,
          paraBreakMs := 420, professorProsody := false,
          prosodyRate := chars ("88%"), prosodyPitch := chars ("-1st"),
          maxSSMLBytes := 4700, maxTextBytes := 4700, sampleRateHz := 24000 }
        (htmlEscape (chars ("a, b"))) =
      chars ("a, <break time='120ms'/> b") ∧
    (50 : Nat) < 120 := by
  refine ⟨by decide, by decide, by decide⟩

/-- C7 (amended): the pause ordering of the spec holds exactly for the
configurations whose sentence pause strictly exceeds 220ms and whose
paragraph pause strictly exceeds the sentence pause.  Then
comma (120ms) < em-dash (180ms) < colon/semicolon (220ms) <
sentence-terminal (`BREAK_MS`) < inter-paragraph (`PARA_BREAK_MS`), and
these are the durations the expander actually emits.  (At the default
configuration `BREAK_MS=220` the sentence pause only ties the
colon/semicolon pause, and an arbitrary configuration can invert the
order, so the claim's universal form fails.) -/
theorem C7_pause_order_amended (cfg : Config) (hb : 220 < cfg.breakMs)
    (hp : cfg.breakMs < cfg.paraBreakMs) :
    ((120 : Nat) < 180 ∧ (180 : Nat) < 220 ∧ 220 < cfg.breakMs ∧
      cfg.breakMs < cfg.paraBreakMs) ∧
    applyBreaks cfg (htmlEscape (chars ("a. b"))) =
      chars ("a.") ++ brkStr cfg.breakMs ++ chars ("b") ∧
    applyBreaks cfg (htmlEscape (chars ("a, b"))) =
      chars ("a, <break time='120ms'/> b") ∧
    applyBreaks cfg (htmlEscape (chars ("a; b"))) =
      chars ("a; <break time='220ms'/> b") ∧
    applyBreaks cfg (htmlEscape (chars ("a-- b"))) =
      chars ("a-- <break time='180ms'/> b") ∧
    applyBreaks cfg (htmlEscape (chars ("a— b"))) =
      chars ("a— <break time='180ms'/> b") ∧
    auto_text_to_ssml cfg (chars ("a\n\nb")) =
      chars ("<speak>") ++ wrapPara cfg (chars ("a")) ++
        chars ("<break time='") ++ natChars cfg.paraBreakMs ++
        chars ("ms'/>") ++ wrapPara cfg (chars ("b")) ++
        chars ("</speak>") :=
  ⟨⟨by decide, by decide, hb, hp⟩, applyBreaks_sentence cfg,
    applyBreaks_comma cfg, applyBreaks_colon cfg, applyBreaks_hyphens cfg,
    applyBreaks_emdash cfg, auto_two_paragraphs cfg⟩

/-- Witness for the amended C7 at a concrete configuration
(`BREAK_MS=300`, `PARA_BREAK_MS=400`). -/
theorem C7_pause_order_amended_witness :
    applyBreaks
        { useSSML := true, ssmlMode := SsmlMode.auto, breakMs := 300,
          paraBreakMs := 400, professorProsody := false,
          prosodyRate := chars ("88%"), prosodyPitch := chars ("-1st"),
          maxSSMLBytes := 4700, maxTextBytes := 4700, sampleRateHz := 24000 }
        (htmlEscape (chars ("a. b"))) =
      chars ("a.") ++ brkStr 300 ++ chars ("b") :=
  (C7_pause_order_amended
    { useSSML := true, ssmlMode := SsmlMode.auto, breakMs := 300,
      paraBreakMs := 400, professorProsody := false,
      prosodyRate := chars ("88%"), prosodyPitch := chars ("-1st"),
      maxSSMLBytes := 4700, maxTextBytes := 4700, sampleRateHz := 24000 }
    (by decide) (by decide)).2.1

/-- C4: evaluation of `main`'s pre-synthesis pipeline at a failing
input, exhibiting that the raw-SSML path does NOT bypass the segmenter.
With `USE_SSML=true`, `SSML_MODE=raw` and `MAX_TEXT_BYTES=12`, the raw
SSML document `"<speak>a. b.</speak>"` (20 bytes, well under the hard
5000-byte ceiling whose check it passes) is nevertheless fed through
`split_text_sentence_aware` and sent as TWO separate SSML payloads
`"<speak>a."` and `"b.</speak>"` — each a malformed fragment — instead
of one unsegmented payload, contradicting the claim and the source's own
comment that raw SSML is not chunked.  (The same happens at the default
`MAX_TEXT_BYTES=4700` for any raw document of 4701..5000 bytes.) -/
theorem C4_raw_mode_is_segmented :
    utf8_len (chars ("<speak>a. b.</speak>")) ≤ 5000 ∧
    mainChunkPlan
        { useSSML := true, ssmlMode := SsmlMode.raw, breakMs := 220,
          paraBreakMs := 420, professorProsody := false,
          prosodyRate := chars ("88%"), prosodyPitch := chars ("-1st"),
          maxSSMLBytes := 4700, maxTextBytes := 12, sampleRateHz := 24000 }
        (chars ("<speak>a. b.</speak>")) =
      Except.ok [Payload.ssml (chars ("<speak>a.")),
        Payload.ssml (chars ("b.</speak>"))] := by
  refine ⟨by decide, by rfl⟩

end TTS
